import Mathlib

/-!
Verification of the reconciliation engine in compare/compare_gitlab_toggl.py.

The Python functions are shallowly embedded as Lean functions over explicit
record types.  Dictionaries keyed by strings become association lists that
preserve insertion order (Python 3.7+ dict semantics); `defaultdict(list)`
appending becomes ordered insertion into such an association list.  Python
functions that can raise (`''.split()[0]` raises IndexError) return `Option`,
with `none` modelling the raised exception, and callers propagate `none`.
Record fields are modelled as the values obtained after the `.get(key,
default)` defaulting the code applies at every access site.
-/

set_option autoImplicit false

namespace WorkLogger

/-! ### String helpers (compare_gitlab_toggl.py lines 12-25) -/

/-- First maximal run of non-whitespace characters, skipping leading
whitespace: the head of the Python `str.split()` token list. `none` when the
list of tokens is empty. -/
def firstToken (l : List Char) : Option (List Char) :=
  match l.dropWhile Char.isWhitespace with
  | [] => none
  | c :: rest => some (c :: rest.takeWhile (fun d => !d.isWhitespace))

/-- Lines 23-25: `entry_date.split()[0]`.  Returns the first
whitespace-delimited token.  Python raises IndexError when the token list is
empty (for example on the empty string); that exception is modelled by
`none`. -/
def get_date_from_entry (entry_date : String) : Option String :=
  match firstToken entry_date.data with
  | none => none
  | some t => some (String.mk t)

/-- Left-to-right scan for the regex `#(\d+)`: at each position, a match
requires a hash sign immediately followed by at least one digit; the captured
group is the maximal digit run after the hash.  Mirrors `re.search` moving the
start position forward one character at a time. -/
def findTaskNumber : List Char → Option String
  | [] => none
  | c :: rest =>
    if c = '#' then
      let ds := rest.takeWhile Char.isDigit
      if ds.isEmpty then findTaskNumber rest else some (String.mk ds)
    else findTaskNumber rest

/-- Lines 12-21: `extract_task_number`.  Returns `None` for falsy (empty)
text, otherwise the first `#digits` match with the digits captured. -/
def extract_task_number (text : String) : Option String :=
  if text.data.isEmpty then none else findTaskNumber text.data

/-- Specification-side predicate: position `i` of `l` starts a substring
consisting of a hash sign followed by at least one digit. -/
def hashDigitsAt (l : List Char) (i : Nat) : Bool :=
  match l.drop i with
  | c :: c2 :: _ => c = '#' && c2.isDigit
  | _ => false

/-- The key-extractor contract stated from the specification text: find the
first (leftmost) position where a hash sign is followed by one or more digits
and return those digits without the hash; return the no-key value when no
position matches. -/
def extract_task_number_spec (text : String) : Option String :=
  match (List.range text.data.length).find? (hashDigitsAt text.data) with
  | some i => some (String.mk ((text.data.drop (i + 1)).takeWhile Char.isDigit))
  | none => none

/-- Line 986: `entry['action'].lower().replace(' ', '-')`, character by
character (ASCII lowercasing; the replacement pattern is the single space
character, so the replacement is character-wise). -/
def pyActionTag (s : String) : String :=
  String.mk (s.data.map (fun c => if Char.toLower c = ' ' then '-' else Char.toLower c))

/-! ### Insertion-ordered association lists (`defaultdict(list)` grouping) -/

/-- Lookup in an insertion-ordered association list of groups; a missing key
reads as the empty group. -/
def lookupG {α : Type} (m : List (String × List α)) (d : String) : List α :=
  match m.find? (fun p => decide (p.1 = d)) with
  | some p => p.2
  | none => []

/-- `m[d].append(v)` on a `defaultdict(list)`: append `v` to the group of `d`,
creating the key at the end of the iteration order when absent. -/
def insertG {α : Type} (m : List (String × List α)) (d : String) (v : α) :
    List (String × List α) :=
  match m with
  | [] => [(d, [v])]
  | p :: rest => if p.1 = d then (p.1, p.2 ++ [v]) :: rest else p :: insertG rest d v

/-- `m[d][k].append(v)` on a nested `defaultdict(lambda: defaultdict(list))`. -/
def insertG2 {α : Type} (g : List (String × List (String × List α))) (d k : String) (v : α) :
    List (String × List (String × List α)) :=
  match g with
  | [] => [(d, [(k, [v])])]
  | p :: rest => if p.1 = d then (p.1, insertG p.2 k v) :: rest else p :: insertG2 rest d k v

/-- Two-level lookup in a nested grouping. -/
def lookupG2 {α : Type} (g : List (String × List (String × List α))) (d k : String) : List α :=
  lookupG (lookupG g d) k

/-- The keys of a one-level grouping. -/
def keysG {α : Type} (m : List (String × List α)) : List String :=
  m.map Prod.fst

/-- Distinctness invariant of a nested grouping built by `insertG2`: outer
keys are distinct and the inner keys of every outer entry are distinct. -/
def nestedNoDup {α : Type} (g : List (String × List (String × List α))) : Prop :=
  (keysG g).Nodup ∧ ∀ p ∈ g, (keysG p.2).Nodup

/-! ### Data model -/

/-- A raw activity-feed event as consumed by `compare_entries` (lines
859-877).  `target` is `some t` exactly when the event has a `details` dict
containing a `target` key with value `t`; every other field is the value
read by `event.get(field, '')`. -/
structure GitlabEvent where
  date : String
  action : String
  project : String
  target : Option String
deriving DecidableEq

/-- A processed activity event appended to `gitlab_events_by_date` (lines
871-877): the raw fields plus the extracted task number. -/
structure GEvent where
  date : String
  action : String
  project : String
  task_number : String
  target : Option String
deriving DecidableEq

/-- A raw time-ledger entry (Toggl), fields as read through `.get` with the
defaults the code uses.  `tags` is kept for the snapshot differ. -/
structure TogglEntry where
  date : String
  description : String
  project : String
  duration : Int
  duration_formatted : String
  tags : List String
deriving DecidableEq

/-- The standardized ledger entry built at lines 888-895. -/
structure TEntry where
  date : String
  description : String
  project : String
  task_number : Option String
  duration : Int
  duration_formatted : String
deriving DecidableEq

/-- A matched/missing outcome record built at lines 921-928. -/
structure OutEntry where
  date : String
  description : String
  project : String
  action : String
  target : Option String
deriving DecidableEq

/-- A ledger-only (`toggl_only`) outcome record built at lines 949-957. -/
structure TonlyEntry where
  date : String
  description : String
  project : String
  duration : Int
  duration_formatted : String
  action : String
deriving DecidableEq

/-- A per-event import record built at lines 980-987. -/
structure ImportEntry where
  description : String
  start : String
  duration : Nat
  project_name : String
  tags : List String
deriving DecidableEq

/-- A squashed import record built at lines 770-777. -/
structure SquashedEntry where
  description : String
  start : String
  duration : Nat
  project_name : String
  tags : List String
deriving DecidableEq

/-- The triples `(date, task_number, toggl_entry_date)` stored in the
`matched_toggl_entries` set (line 938). -/
abbrev Triple := String × String × String

/-- Accumulator of the matching loop: `missing_entries`, `matched_entries`
and the `matched_toggl_entries` set (membership is all that is used, so the
set is carried as the list of added triples). -/
structure MState where
  missing : List OutEntry
  matched : List OutEntry
  consumed : List Triple
deriving DecidableEq

/-- The outcome lists of one `compare_entries` run (lines 904-1005,
reconciliation part only). -/
structure CompareOutput where
  matched : List OutEntry
  missing : List OutEntry
  toggl_only : List TonlyEntry
  toggl_import_data : List ImportEntry
deriving DecidableEq

/-! ### Grouping passes of `compare_entries` -/

/-- Lines 863-865: the task number of an activity event comes from
`details['target']` when that key chain exists. -/
def keyOfEvent (event : GitlabEvent) : Option String :=
  match event.target with
  | none => none
  | some t => extract_task_number t

/-- Lines 871-877: the processed event dict appended to the day group. -/
def mkGEvent (event : GitlabEvent) (tn : String) : GEvent :=
  { date := event.date, action := event.action, project := event.project,
    task_number := tn, target := event.target }

/-- Lines 857-877: group activity events by calendar day, dropping events
without an extractable task number.  The day is computed before the filter,
so an unsplittable date raises (propagates `none`) even for keyless events. -/
def groupGitlabAux : List GitlabEvent → List (String × List GEvent) →
    Option (List (String × List GEvent))
  | [], acc => some acc
  | event :: rest, acc =>
    match get_date_from_entry event.date with
    | none => none
    | some d =>
      match keyOfEvent event with
      | none => groupGitlabAux rest acc
      | some tn => groupGitlabAux rest (insertG acc d (mkGEvent event tn))

/-- The `gitlab_events_by_date` index. -/
def groupGitlab (events : List GitlabEvent) : Option (List (String × List GEvent)) :=
  groupGitlabAux events []

/-- Lines 888-895: the standardized ledger entry. -/
def standardize (entry : TogglEntry) : TEntry :=
  { date := entry.date, description := entry.description, project := entry.project,
    task_number := extract_task_number entry.description,
    duration := entry.duration, duration_formatted := entry.duration_formatted }

/-- Lines 879-902: build `all_toggl_entries` and `toggl_entries_by_date`;
only entries with a task number enter the by-date index. -/
def groupTogglAux : List TogglEntry → List TEntry → List (String × List TEntry) →
    Option (List TEntry × List (String × List TEntry))
  | [], allAcc, byDate => some (allAcc, byDate)
  | entry :: rest, allAcc, byDate =>
    match get_date_from_entry entry.date with
    | none => none
    | some d =>
      let te := standardize entry
      groupTogglAux rest (allAcc ++ [te])
        (if te.task_number.isSome then insertG byDate d te else byDate)

/-- The pair `(all_toggl_entries, toggl_entries_by_date)`. -/
def groupToggl (entries : List TogglEntry) :
    Option (List TEntry × List (String × List TEntry)) :=
  groupTogglAux entries [] []

/-! ### The matcher (lines 904-958) -/

/-- Line 917 and line 931: the event task number is among the task numbers
logged in the ledger for the day. -/
def matchP (tByDate : List (String × List TEntry)) (d : String) (e : GEvent) : Bool :=
  (lookupG tByDate d).any (fun te => decide (te.task_number = some e.task_number))

/-- Lines 936-938: the consumption triples recorded for one matched event —
one per ledger entry of the day sharing the event task number. -/
def consumedOf (tByDate : List (String × List TEntry)) (d : String) (e : GEvent) :
    List Triple :=
  ((lookupG tByDate d).filter (fun te => decide (te.task_number = some e.task_number))).map
    (fun te => (d, e.task_number, te.date))

/-- Lines 921-928: the derived outcome record of one activity event. -/
def mkOut (e : GEvent) : OutEntry :=
  { date := e.date, description := "#" ++ e.task_number, project := e.project,
    action := e.action, target := e.target }

/-- Lines 920-941: classify one activity event as matched or missing. -/
def processEvent (tByDate : List (String × List TEntry)) (d : String)
    (st : MState) (e : GEvent) : MState :=
  if matchP tByDate d e then
    { st with matched := st.matched ++ [mkOut e],
              consumed := st.consumed ++ consumedOf tByDate d e }
  else
    { st with missing := st.missing ++ [mkOut e] }

/-- The inner loop over the events of one day group. -/
def processEvents (tByDate : List (String × List TEntry)) (d : String) :
    MState → List GEvent → MState
  | st, [] => st
  | st, e :: rest => processEvents tByDate d (processEvent tByDate d st e) rest

/-- Lines 913-941: the loop over day groups of the activity index. -/
def matchPassAux (tByDate : List (String × List TEntry)) :
    MState → List (String × List GEvent) → MState
  | st, [] => st
  | st, g :: rest => matchPassAux tByDate (processEvents tByDate g.1 st g.2) rest

/-- Lines 949-957: the ledger-only outcome record of a standardized entry. -/
def mkTonly (te : TEntry) : TonlyEntry :=
  { date := te.date, description := te.description, project := te.project,
    duration := te.duration, duration_formatted := te.duration_formatted,
    action := "Toggl Entry" }

/-- Lines 943-958: emit a ledger-only record for every entry whose task
number is absent or whose `(day, task_number, timestamp)` triple was never
consumed.  The day is recomputed first, so a bad date raises here too. -/
def togglOnlyAux (consumed : List Triple) :
    List TEntry → List TonlyEntry → Option (List TonlyEntry)
  | [], acc => some acc
  | te :: rest, acc =>
    match get_date_from_entry te.date with
    | none => none
    | some d =>
      match te.task_number with
      | none => togglOnlyAux consumed rest (acc ++ [mkTonly te])
      | some k =>
        if (d, k, te.date) ∈ consumed then togglOnlyAux consumed rest acc
        else togglOnlyAux consumed rest (acc ++ [mkTonly te])

/-- Lines 971-988: the import record generated for one missing entry. -/
def mkImport (entry : OutEntry) : ImportEntry :=
  { description :=
      match entry.target with
      | some t => if t = "" then entry.description else t
      | none => entry.description,
    start := entry.date,
    duration := 30 * 60,
    project_name := entry.project,
    tags := ["gitlab-import", pyActionTag entry.action] }

/-- The loop at lines 970-988 appending one import record per missing entry. -/
def importAux : List OutEntry → List ImportEntry → List ImportEntry
  | [], acc => acc
  | e :: rest, acc => importAux rest (acc ++ [mkImport e])

/-- The reconciliation core of `compare_entries` (lines 857-1005): grouping,
matching, the ledger-only pass and the per-event import batch.  `none`
models an uncaught IndexError from `get_date_from_entry`. -/
def compare_core (events : List GitlabEvent) (entries : List TogglEntry) :
    Option CompareOutput :=
  match groupGitlab events with
  | none => none
  | some ggroups =>
    match groupToggl entries with
    | none => none
    | some (allEntries, byDate) =>
      let st := matchPassAux byDate { missing := [], matched := [], consumed := [] } ggroups
      match togglOnlyAux st.consumed allEntries [] with
      | none => none
      | some tonly =>
        some { matched := st.matched, missing := st.missing, toggl_only := tonly,
               toggl_import_data := importAux st.missing [] }

/-! ### Descriptors used to state properties of the matcher -/

/-- The activity events that survive the keyed filter, in input order, with
their extracted task numbers. -/
def keyedOf (events : List GitlabEvent) : List GEvent :=
  events.filterMap (fun event =>
    match get_date_from_entry event.date with
    | none => none
    | some _ =>
      match keyOfEvent event with
      | none => none
      | some tn => some (mkGEvent event tn))

/-- The matched records contributed by one day group. -/
def gMatched (tByDate : List (String × List TEntry)) (d : String) (evs : List GEvent) :
    List OutEntry :=
  (evs.filter (matchP tByDate d)).map mkOut

/-- The missing records contributed by one day group. -/
def gMissing (tByDate : List (String × List TEntry)) (d : String) (evs : List GEvent) :
    List OutEntry :=
  (evs.filter (fun e => !matchP tByDate d e)).map mkOut

/-- The consumption triples contributed by one day group. -/
def gConsumed (tByDate : List (String × List TEntry)) (d : String) (evs : List GEvent) :
    List Triple :=
  evs.flatMap (fun e => if matchP tByDate d e then consumedOf tByDate d e else [])

/-- All matched records of a run, grouped-iteration order. -/
def allMatched (tByDate : List (String × List TEntry))
    (gg : List (String × List GEvent)) : List OutEntry :=
  gg.flatMap (fun g => gMatched tByDate g.1 g.2)

/-- All missing records of a run. -/
def allMissing (tByDate : List (String × List TEntry))
    (gg : List (String × List GEvent)) : List OutEntry :=
  gg.flatMap (fun g => gMissing tByDate g.1 g.2)

/-- All consumption triples of a run. -/
def allConsumed (tByDate : List (String × List TEntry))
    (gg : List (String × List GEvent)) : List Triple :=
  gg.flatMap (fun g => gConsumed tByDate g.1 g.2)

/-- The condition under which the ledger-only pass emits a record for a
standardized entry (the guard at line 948). -/
def emitTonly (consumed : List Triple) (te : TEntry) : Bool :=
  match te.task_number with
  | none => true
  | some k =>
    match get_date_from_entry te.date with
    | none => true
    | some d => !(decide ((d, k, te.date) ∈ consumed))

/-- Membership test of a processed activity event in the day-`d` group. -/
def gEventDay (d : String) (e : GEvent) : Bool :=
  decide (get_date_from_entry e.date = some d)

/-- Membership test of a standardized ledger entry in the keyed by-date
index under day `d`: it has a task number and belongs to that day. -/
def tKeyedDay (d : String) (s : TEntry) : Bool :=
  s.task_number.isSome && decide (get_date_from_entry s.date = some d)

/-! ### Squash synthesizer (lines 723-781) -/

/-- Lines 759-777: the squashed entry of one `(day, task)` group, built from
the first entry of the group and the group size `n`.  The description check
at line 767 tests key presence only (no truthiness test). -/
def mkSquash (task_number : String) (first : OutEntry) (n : Nat) : SquashedEntry :=
  { description :=
      match first.target with
      | some t => t
      | none => "#" ++ task_number,
    start := first.date,
    duration := n * 1800,
    project_name := first.project,
    tags := ["gitlab-import", "squashed"] }

/-- Lines 742-747: group the missing entries by `(day, task_number)`,
skipping entries without an extractable task number.  The day is computed
before the key test, so a bad date raises first. -/
def squashGroupsAux : List OutEntry → List (String × List (String × List OutEntry)) →
    Option (List (String × List (String × List OutEntry)))
  | [], acc => some acc
  | e :: rest, acc =>
    match get_date_from_entry e.date with
    | none => none
    | some d =>
      match extract_task_number e.description with
      | none => squashGroupsAux rest acc
      | some k => squashGroupsAux rest (insertG2 acc d k e)

/-- The inner loop of lines 753-779: one squashed entry per non-empty task
group of a single day. -/
def innerSquash (tasks : List (String × List OutEntry)) : List SquashedEntry :=
  tasks.flatMap (fun q =>
    match q.2 with
    | [] => []
    | first :: rest => [mkSquash q.1 first (rest.length + 1)])

/-- Lines 752-779: iterate the nested grouping in insertion order, emitting
one squashed entry per non-empty `(day, task)` group. -/
def squashFlatten (g : List (String × List (String × List OutEntry))) :
    List SquashedEntry :=
  g.flatMap (fun p => innerSquash p.2)

/-- Lines 723-781: `generate_squashed_import_data`. -/
def generate_squashed_import_data (missing_entries : List OutEntry) :
    Option (List SquashedEntry) :=
  (squashGroupsAux missing_entries []).map squashFlatten

/-- `innerSquash` with each output annotated by its `(day, task)` group key. -/
def innerAnnotated (dkey : String) (tasks : List (String × List OutEntry)) :
    List ((String × String) × SquashedEntry) :=
  tasks.flatMap (fun q =>
    match q.2 with
    | [] => []
    | first :: rest => [((dkey, q.1), mkSquash q.1 first (rest.length + 1))])

/-- `squashFlatten` with each output annotated by the `(day, task)` key of
the group it came from; used to state per-group uniqueness. -/
def squashAnnotated (g : List (String × List (String × List OutEntry))) :
    List ((String × String) × SquashedEntry) :=
  g.flatMap (fun p => innerAnnotated p.1 p.2)

/-- Membership test of a missing entry in the `(d, k)` squash group. -/
def missingGroupP (d k : String) (e : OutEntry) : Bool :=
  decide (get_date_from_entry e.date = some d) &&
    decide (extract_task_number e.description = some k)

/-! ### Snapshot differ (generate_side_by_side_html, lines 87-108 and 410-435) -/

/-- Lines 93-98 / 103-108: the grouping key of a snapshot entry — the
extracted task number, or the full description when there is none. -/
def diffKey (e : TogglEntry) : String :=
  match extract_task_number e.description with
  | some tn => tn
  | none => e.description

/-- Lines 427-430: the field-by-field difference test; `tags` are compared
as Python lists, element by element in order. -/
def entriesDiffer (u o : TogglEntry) : Bool :=
  decide (¬(u.description = o.description ∧ u.project = o.project ∧
            u.duration = o.duration ∧ u.tags = o.tags))

/-- Lines 410-435: classify one newer-snapshot entry against the
older-snapshot entries of the same `(day, key)` group: `added` when no older
entry has the same full timestamp, otherwise `modified` when some
same-timestamp older entry differs field-by-field, otherwise the empty tag
(unchanged). -/
def diffRowClass (origGroup : List TogglEntry) (u : TogglEntry) : String :=
  let matching := origGroup.filter (fun o => decide (o.date = u.date))
  if matching.isEmpty then "added"
  else if matching.any (entriesDiffer u) then "modified"
  else ""

/-- Lines 91-98 (and identically 101-108): build the `(day, key)` index of a
snapshot.  The day computation can raise, which propagates. -/
def buildDiffIndexAux : List TogglEntry →
    List (String × List (String × List TogglEntry)) →
    Option (List (String × List (String × List TogglEntry)))
  | [], acc => some acc
  | e :: rest, acc =>
    match get_date_from_entry e.date with
    | none => none
    | some d => buildDiffIndexAux rest (insertG2 acc d (diffKey e) e)

/-- The tag given to a newer-snapshot entry when the loop reaches day `d`
and task key `k`: the classification against the older-snapshot group stored
under `(d, k)`. -/
def rowClassOf (idx : List (String × List (String × List TogglEntry)))
    (d k : String) (u : TogglEntry) : String :=
  diffRowClass (lookupG2 idx d k) u

/-- Membership test of a snapshot entry in the `(d, k)` diff group. -/
def diffGroupP (d k : String) (o : TogglEntry) : Bool :=
  decide (get_date_from_entry o.date = some d) && decide (diffKey o = k)

/-! ### Concrete sample data for witnesses and counterexamples -/

/-- An activity event carrying task key 123 on 2024-03-01. -/
def evA : GitlabEvent :=
  { date := "2024-03-01 10:00:00", action := "pushed to", project := "proj",
    target := some "#123 Fix bug" }

/-- A second activity event with the same key on the same day. -/
def evB : GitlabEvent :=
  { date := "2024-03-01 11:00:00", action := "commented on", project := "proj",
    target := some "#123 Fix bug" }

/-- An activity event with no extractable task key. -/
def evNoKey : GitlabEvent :=
  { date := "2024-03-01 10:00:00", action := "pushed to", project := "proj",
    target := some "no key here" }

/-- An activity event whose date field defaulted to the empty string. -/
def evEmptyDate : GitlabEvent :=
  { date := "", action := "pushed to", project := "proj", target := some "#123 Fix bug" }

/-- A ledger entry tagged with key 123 on 2024-03-01. -/
def tlA : TogglEntry :=
  { date := "2024-03-01 09:30:00", description := "#123 work", project := "proj",
    duration := 3600, duration_formatted := "1h 0m", tags := [] }

/-- A keyless ledger entry. -/
def tlNoKey : TogglEntry :=
  { date := "2024-03-01 12:00:00", description := "standup", project := "proj",
    duration := 900, duration_formatted := "0h 15m", tags := [] }

/-- A ledger entry whose date field defaulted to the empty string. -/
def tlEmptyDate : TogglEntry :=
  { date := "", description := "#123 work", project := "proj",
    duration := 3600, duration_formatted := "1h 0m", tags := [] }

/-- Three missing records sharing day 2024-03-01 and key 123 (scenario 3). -/
def msq1 : OutEntry :=
  { date := "2024-03-01 09:00:00", description := "#123", project := "proj",
    action := "pushed to", target := some "#123 Fix bug" }

/-- Second record of the squash witness group. -/
def msq2 : OutEntry :=
  { date := "2024-03-01 10:00:00", description := "#123", project := "proj",
    action := "commented on", target := some "#123 Fix bug" }

/-- Third record of the squash witness group. -/
def msq3 : OutEntry :=
  { date := "2024-03-01 11:00:00", description := "#123", project := "proj",
    action := "pushed to", target := some "#123 Fix bug" }

/-- The nested grouping produced by the squash witness input. -/
def sqGroups : List (String × List (String × List OutEntry)) :=
  [("2024-03-01", [("123", [msq1, msq2, msq3])])]

/-- The processed outcome record of `evA`. -/
def outA : OutEntry :=
  { date := "2024-03-01 10:00:00", description := "#123", project := "proj",
    action := "pushed to", target := some "#123 Fix bug" }

/-- The processed outcome record of `evB`. -/
def outB : OutEntry :=
  { date := "2024-03-01 11:00:00", description := "#123", project := "proj",
    action := "commented on", target := some "#123 Fix bug" }

/-- The output of `compare_core [evA, evB] [tlA, tlNoKey]`. -/
def cOut : CompareOutput :=
  { matched := [outA, outB], missing := [],
    toggl_only := [{ date := "2024-03-01 12:00:00", description := "standup",
                     project := "proj", duration := 900, duration_formatted := "0h 15m",
                     action := "Toggl Entry" }],
    toggl_import_data := [] }

/-- The output of `compare_core [evA, evB] [tlA]`: the ledger entry is
consumed, so the ledger-only list is empty. -/
def c5out : CompareOutput :=
  { matched := [outA, outB], missing := [], toggl_only := [], toggl_import_data := [] }

/-- The output of `compare_core [] [tlNoKey]`: one ledger-only record. -/
def c9out : CompareOutput :=
  { matched := [], missing := [],
    toggl_only := [{ date := "2024-03-01 12:00:00", description := "standup",
                     project := "proj", duration := 900, duration_formatted := "0h 15m",
                     action := "Toggl Entry" }],
    toggl_import_data := [] }

/-- The output of `compare_core [evA] []`: one missing record and its
per-event import record. -/
def c10out : CompareOutput :=
  { matched := [], missing := [outA], toggl_only := [],
    toggl_import_data := [{ description := "#123 Fix bug", start := "2024-03-01 10:00:00",
                            duration := 1800, project_name := "proj",
                            tags := ["gitlab-import", "pushed-to"] }] }

/-- Older-snapshot entry used by the differ theorems: tags in order a, b. -/
def dOld : TogglEntry :=
  { date := "2024-03-01 09:00:00", description := "#123 work", project := "proj",
    duration := 3600, duration_formatted := "1h 0m", tags := ["a", "b"] }

/-- Newer-snapshot entry equal to `dOld` except for the tag order. -/
def dNewSwapped : TogglEntry :=
  { date := "2024-03-01 09:00:00", description := "#123 work", project := "proj",
    duration := 3600, duration_formatted := "1h 0m", tags := ["b", "a"] }

/-- Newer-snapshot entry with a timestamp absent from the older snapshot. -/
def dNewFresh : TogglEntry :=
  { date := "2024-03-01 14:00:00", description := "#123 work", project := "proj",
    duration := 1800, duration_formatted := "0h 30m", tags := ["a", "b"] }

/-- The diff index of the one-entry older snapshot. -/
def dIdx : List (String × List (String × List TogglEntry)) :=
  [("2024-03-01", [("123", [dOld])])]

/-! ## Lemmas about the key extractor -/

theorem hashDigitsAt_succ (c : Char) (l : List Char) (i : Nat) :
    hashDigitsAt (c :: l) (i + 1) = hashDigitsAt l i := by
  simp [hashDigitsAt, List.drop_succ_cons]

theorem hashDigitsAt_zero_cons (c c2 : Char) (l : List Char) :
    hashDigitsAt (c :: c2 :: l) 0 = (decide (c = '#') && c2.isDigit) := by
  simp [hashDigitsAt]

theorem hashDigitsAt_zero_single (c : Char) :
    hashDigitsAt [c] 0 = false := by
  simp [hashDigitsAt]

theorem findTaskNumber_cons_hash (rest : List Char) :
    findTaskNumber ('#' :: rest) =
      (if (rest.takeWhile Char.isDigit).isEmpty then findTaskNumber rest
       else some (String.mk (rest.takeWhile Char.isDigit))) := by
  simp [findTaskNumber]

theorem findTaskNumber_cons_ne (c : Char) (rest : List Char) (hc : c ≠ '#') :
    findTaskNumber (c :: rest) = findTaskNumber rest := by
  simp [findTaskNumber, hc]

theorem find?_range_shift (c : Char) (l : List Char)
    (h0 : hashDigitsAt (c :: l) 0 = false) :
    (List.range (l.length + 1)).find? (hashDigitsAt (c :: l)) =
      ((List.range l.length).find? (hashDigitsAt l)).map Nat.succ := by
  have hfun : hashDigitsAt (c :: l) ∘ Nat.succ = hashDigitsAt l :=
    funext fun i => hashDigitsAt_succ c l i
  rw [List.range_succ_eq_map, List.find?_cons_of_neg _ (by simp [h0]),
    List.find?_map, hfun]

theorem findTaskNumber_eq_firstMatch (l : List Char) :
    findTaskNumber l =
      match (List.range l.length).find? (hashDigitsAt l) with
      | some i => some (String.mk ((l.drop (i + 1)).takeWhile Char.isDigit))
      | none => none := by
  induction l with
  | nil => simp [findTaskNumber]
  | cons c rest ih =>
    by_cases hc : c = '#'
    · subst hc
      cases rest with
      | nil => decide
      | cons c2 rest2 =>
        by_cases hd : c2.isDigit
        · have h0 : hashDigitsAt ('#' :: c2 :: rest2) 0 = true := by
            rw [hashDigitsAt_zero_cons]; simp [hd]
          rw [show ('#' :: c2 :: rest2).length = (c2 :: rest2).length + 1 from rfl,
            List.range_succ_eq_map, List.find?_cons_of_pos _ h0]
          rw [findTaskNumber_cons_hash]
          have htw : (c2 :: rest2).takeWhile Char.isDigit = c2 :: rest2.takeWhile Char.isDigit := by
            simp [List.takeWhile_cons, hd]
          rw [htw, if_neg (by simp)]
          simp [List.drop_succ_cons, htw]
        · have h0 : hashDigitsAt ('#' :: c2 :: rest2) 0 = false := by
            rw [hashDigitsAt_zero_cons]; simp [hd]
          rw [show ('#' :: c2 :: rest2).length = (c2 :: rest2).length + 1 from rfl,
            find?_range_shift _ _ h0]
          have hds : (c2 :: rest2).takeWhile Char.isDigit = [] := by
            simp [List.takeWhile_cons, hd]
          rw [findTaskNumber_cons_hash, hds, if_pos (by decide), ih]
          cases hfind : (List.range (c2 :: rest2).length).find? (hashDigitsAt (c2 :: rest2)) with
          | none => simp
          | some j => simp [List.drop_succ_cons]
    · have h0 : hashDigitsAt (c :: rest) 0 = false := by
        cases rest with
        | nil => exact hashDigitsAt_zero_single c
        | cons c2 rest2 => rw [hashDigitsAt_zero_cons]; simp [hc]
      rw [show (c :: rest).length = rest.length + 1 from rfl, find?_range_shift _ _ h0]
      rw [findTaskNumber_cons_ne c rest hc, ih]
      cases hfind : (List.range rest.length).find? (hashDigitsAt rest) with
      | none => simp
      | some j => simp [List.drop_succ_cons]

/-- C2: key extractor contract.  For every input text the extractor agrees
with the specification-side first-match function: it returns the digits
(without the hash) of the first substring consisting of a hash sign followed
by one or more digits, and the no-key value `none` when no such substring
exists; in particular it is total, so it cannot raise on empty input, on
which it returns `none`. -/
theorem extract_task_number_contract (text : String) :
    extract_task_number text = extract_task_number_spec text ∧
      extract_task_number "" = none := by
  refine ⟨?_, rfl⟩
  unfold extract_task_number extract_task_number_spec
  by_cases h : text.data.isEmpty
  · rw [if_pos h]
    rw [List.isEmpty_iff] at h
    rw [h]
    rfl
  · rw [if_neg h]
    exact findTaskNumber_eq_firstMatch text.data

theorem findTaskNumber_of_no_hash (l : List Char) (h : ∀ c ∈ l, c ≠ '#') :
    findTaskNumber l = none := by
  induction l with
  | nil => rfl
  | cons c rest ih =>
    have hc : c ≠ '#' := h c (List.mem_cons_self c rest)
    simp only [findTaskNumber, if_neg hc]
    exact ih (fun d hd => h d (List.mem_cons_of_mem c hd))

theorem extract_of_digit_string (k : String) (hne : k ≠ "")
    (hdig : ∀ c ∈ k.data, c.isDigit) :
    extract_task_number ("#" ++ k) = some k ∧ extract_task_number k = none := by
  have hdata : ("#" ++ k).data = '#' :: k.data := by
    rw [String.data_append]; rfl
  have hkd : k.data ≠ [] := by
    intro hnil
    exact hne (String.ext hnil)
  constructor
  · unfold extract_task_number
    rw [hdata, if_neg (by simp), findTaskNumber_cons_hash]
    have htw : k.data.takeWhile Char.isDigit = k.data :=
      List.takeWhile_eq_self_iff.mpr hdig
    rw [htw, if_neg (by simp only [List.isEmpty_iff]; exact hkd)]
  · unfold extract_task_number
    rw [if_neg (by simp only [List.isEmpty_iff]; exact hkd)]
    apply findTaskNumber_of_no_hash
    intro c hc heq
    have : ('#' : Char).isDigit = true := heq ▸ hdig c hc
    simp at this

/-- C8 counterexample: a string that is a bare key — the digits alone,
without the hash marker — does not extract to itself: extraction yields the
no-key value because the `#digits` pattern requires the hash. -/
theorem c8_bare_key_counterexample :
    extract_task_number "123" = none ∧ extract_task_number "123" ≠ some "123" := by
  decide

/-- C8 (amended): key extraction is deterministic and repeatable; extracting
from a bare key alone yields the no-key value (the pattern requires the hash
marker), while extracting from the hash marker followed by a bare key
returns exactly that key. -/
theorem c8_extraction_deterministic_hash_key :
    (∀ s t : String, s = t → extract_task_number s = extract_task_number t) ∧
      ∀ k : String, k ≠ "" → (∀ c ∈ k.data, c.isDigit) →
        extract_task_number ("#" ++ k) = some k ∧ extract_task_number k = none := by
  exact ⟨fun s t h => h ▸ rfl, extract_of_digit_string⟩

/-- Witness for C8 at the concrete key 123. -/
theorem c8_witness :
    extract_task_number ("#" ++ "123") = some "123" ∧
      extract_task_number "123" = none := by
  exact c8_extraction_deterministic_hash_key.2 "123" (by decide) (by decide)

/-! ## Lemmas about insertion-ordered grouping -/

theorem lookupG_nil {α : Type} (d : String) : lookupG ([] : List (String × List α)) d = [] :=
  rfl

theorem lookupG_cons {α : Type} (p : String × List α) (m : List (String × List α))
    (d : String) : lookupG (p :: m) d = if p.1 = d then p.2 else lookupG m d := by
  by_cases h : p.1 = d <;> simp [lookupG, List.find?_cons, h]

theorem lookupG_insertG_self {α : Type} (m : List (String × List α)) (d : String) (v : α) :
    lookupG (insertG m d v) d = lookupG m d ++ [v] := by
  induction m with
  | nil => simp [insertG, lookupG_cons, lookupG_nil]
  | cons p rest ih =>
    by_cases h : p.1 = d
    · simp [insertG, h, lookupG_cons]
    · simp [insertG, h, lookupG_cons, ih]

theorem lookupG_insertG_ne {α : Type} (m : List (String × List α)) (d d' : String)
    (v : α) (h : d' ≠ d) : lookupG (insertG m d v) d' = lookupG m d' := by
  induction m with
  | nil => simp [insertG, lookupG_cons, lookupG_nil, Ne.symm h]
  | cons p rest ih =>
    by_cases hp : p.1 = d
    · rw [show insertG (p :: rest) d v = (p.1, p.2 ++ [v]) :: rest by simp [insertG, hp]]
      rw [lookupG_cons, lookupG_cons]
      rw [if_neg (by rw [hp]; exact Ne.symm h), if_neg (by rw [hp]; exact Ne.symm h)]
    · simp [insertG, hp, lookupG_cons, ih]

theorem flatMap_insertG_perm {α : Type} (m : List (String × List α)) (d : String) (v : α) :
    List.Perm ((insertG m d v).flatMap Prod.snd) ((m.flatMap Prod.snd) ++ [v]) := by
  induction m with
  | nil => simp [insertG]
  | cons p rest ih =>
    by_cases h : p.1 = d
    · simp only [insertG, if_pos h, List.flatMap_cons]
      rw [List.append_assoc, List.append_assoc]
      exact List.Perm.append_left p.2 List.perm_append_comm
    · simp only [insertG, if_neg h, List.flatMap_cons]
      rw [List.append_assoc]
      exact List.Perm.append_left p.2 ih

theorem keysG_cons {α : Type} (p : String × List α) (m : List (String × List α)) :
    keysG (p :: m) = p.1 :: keysG m :=
  rfl

theorem keysG_insertG {α : Type} (m : List (String × List α)) (d : String) (v : α) :
    keysG (insertG m d v) = if d ∈ keysG m then keysG m else keysG m ++ [d] := by
  induction m with
  | nil => simp [insertG, keysG]
  | cons p rest ih =>
    by_cases h : p.1 = d
    · have hm : d ∈ keysG (p :: rest) := by rw [keysG_cons, h]; exact List.mem_cons_self _ _
      simp [insertG, h, keysG_cons, hm]
    · rw [show insertG (p :: rest) d v = p :: insertG rest d v by simp [insertG, h]]
      rw [keysG_cons, keysG_cons, ih]
      by_cases hm : d ∈ keysG rest
      · rw [if_pos hm, if_pos (List.mem_cons_of_mem _ hm)]
      · rw [if_neg hm, if_neg (by
          rw [List.mem_cons]
          rintro (hcontra | hcontra)
          · exact h hcontra.symm
          · exact hm hcontra)]
        rfl

theorem nodup_keysG_insertG {α : Type} (m : List (String × List α)) (d : String) (v : α)
    (h : (keysG m).Nodup) : (keysG (insertG m d v)).Nodup := by
  rw [keysG_insertG]
  by_cases hm : d ∈ keysG m
  · rw [if_pos hm]; exact h
  · rw [if_neg hm]
    refine List.Nodup.append h (List.nodup_singleton d) ?_
    intro a ha hd
    rw [List.mem_singleton] at hd
    subst hd
    exact hm ha

theorem insertG_forall {α : Type} (Q : String → α → Prop) (m : List (String × List α))
    (d : String) (v : α) (hm : ∀ p ∈ m, ∀ x ∈ p.2, Q p.1 x) (hv : Q d v) :
    ∀ p ∈ insertG m d v, ∀ x ∈ p.2, Q p.1 x := by
  induction m with
  | nil =>
    intro p hp x hx
    rw [show insertG ([] : List (String × List α)) d v = [(d, [v])] from rfl,
      List.mem_singleton] at hp
    subst hp
    rw [List.mem_singleton] at hx
    subst hx
    exact hv
  | cons q rest ih =>
    by_cases h : q.1 = d
    · rw [show insertG (q :: rest) d v = (q.1, q.2 ++ [v]) :: rest by simp [insertG, h]]
      intro p hp x hx
      rcases List.mem_cons.mp hp with hval | htail
      · subst hval
        rcases List.mem_append.mp hx with hl | hr
        · exact hm q (List.mem_cons_self _ _) x hl
        · rw [List.mem_singleton] at hr
          subst hr
          rw [h]
          exact hv
      · exact hm p (List.mem_cons_of_mem _ htail) x hx
    · rw [show insertG (q :: rest) d v = q :: insertG rest d v by simp [insertG, h]]
      intro p hp x hx
      rcases List.mem_cons.mp hp with hval | htail
      · subst hval
        exact hm p (List.mem_cons_self _ _) x hx
      · exact ih (fun r hr => hm r (List.mem_cons_of_mem _ hr)) p htail x hx

theorem lookupG_mem {α : Type} (m : List (String × List α)) (d : String)
    (h : lookupG m d ≠ []) : (d, lookupG m d) ∈ m := by
  cases hf : m.find? (fun p => decide (p.1 = d)) with
  | none =>
    exfalso
    apply h
    unfold lookupG
    rw [hf]
  | some p =>
    have hmem := List.mem_of_find?_eq_some hf
    have hdec := List.find?_some hf
    have hkey : p.1 = d := of_decide_eq_true hdec
    have hlook : lookupG m d = p.2 := by unfold lookupG; rw [hf]
    rw [hlook, ← hkey]
    exact hmem

/-! ## Lemmas about nested grouping -/

theorem lookupG_insertG2_outer_ne {α : Type}
    (g : List (String × List (String × List α))) (d k d' : String) (v : α)
    (h : d' ≠ d) : lookupG (insertG2 g d k v) d' = lookupG g d' := by
  induction g with
  | nil => simp [insertG2, lookupG_cons, lookupG_nil, Ne.symm h]
  | cons p rest ih =>
    by_cases hp : p.1 = d
    · rw [show insertG2 (p :: rest) d k v = (p.1, insertG p.2 k v) :: rest by
        simp [insertG2, hp]]
      rw [lookupG_cons, lookupG_cons]
      rw [if_neg (by rw [hp]; exact Ne.symm h), if_neg (by rw [hp]; exact Ne.symm h)]
    · rw [show insertG2 (p :: rest) d k v = p :: insertG2 rest d k v by simp [insertG2, hp]]
      rw [lookupG_cons, lookupG_cons, ih]

theorem lookupG_insertG2_outer_self {α : Type}
    (g : List (String × List (String × List α))) (d k : String) (v : α) :
    lookupG (insertG2 g d k v) d = insertG (lookupG g d) k v := by
  induction g with
  | nil => simp [insertG2, lookupG_cons, lookupG_nil, insertG]
  | cons p rest ih =>
    by_cases hp : p.1 = d
    · rw [show insertG2 (p :: rest) d k v = (p.1, insertG p.2 k v) :: rest by
        simp [insertG2, hp]]
      rw [lookupG_cons, lookupG_cons, if_pos hp, if_pos hp]
    · rw [show insertG2 (p :: rest) d k v = p :: insertG2 rest d k v by simp [insertG2, hp]]
      rw [lookupG_cons, lookupG_cons, if_neg hp, if_neg hp, ih]

theorem lookupG2_insertG2_self {α : Type}
    (g : List (String × List (String × List α))) (d k : String) (v : α) :
    lookupG2 (insertG2 g d k v) d k = lookupG2 g d k ++ [v] := by
  unfold lookupG2
  rw [lookupG_insertG2_outer_self, lookupG_insertG_self]

theorem lookupG2_insertG2_ne {α : Type}
    (g : List (String × List (String × List α))) (d k d' k' : String) (v : α)
    (h : ¬(d' = d ∧ k' = k)) :
    lookupG2 (insertG2 g d k v) d' k' = lookupG2 g d' k' := by
  unfold lookupG2
  by_cases hd : d' = d
  · subst hd
    have hk : k' ≠ k := fun hh => h ⟨rfl, hh⟩
    rw [lookupG_insertG2_outer_self, lookupG_insertG_ne _ _ _ _ hk]
  · rw [lookupG_insertG2_outer_ne _ _ _ _ _ hd]

theorem keysG_insertG2 {α : Type}
    (g : List (String × List (String × List α))) (d k : String) (v : α) :
    keysG (insertG2 g d k v) = if d ∈ keysG g then keysG g else keysG g ++ [d] := by
  induction g with
  | nil => simp [insertG2, keysG]
  | cons p rest ih =>
    by_cases h : p.1 = d
    · rw [show insertG2 (p :: rest) d k v = (p.1, insertG p.2 k v) :: rest by
        simp [insertG2, h]]
      have hm : d ∈ p.1 :: keysG rest := by rw [h]; exact List.mem_cons_self _ _
      rw [keysG_cons, keysG_cons, if_pos hm]
    · rw [show insertG2 (p :: rest) d k v = p :: insertG2 rest d k v by simp [insertG2, h]]
      rw [keysG_cons, keysG_cons, ih]
      by_cases hm : d ∈ keysG rest
      · rw [if_pos hm, if_pos (List.mem_cons_of_mem _ hm)]
      · rw [if_neg hm, if_neg (by
          rw [List.mem_cons]
          rintro (hcontra | hcontra)
          · exact h hcontra.symm
          · exact hm hcontra)]
        rfl

theorem nestedNoDup_insertG2 {α : Type}
    (g : List (String × List (String × List α))) (d k : String) (v : α)
    (h : nestedNoDup g) : nestedNoDup (insertG2 g d k v) := by
  induction g with
  | nil =>
    constructor
    · simp [insertG2, keysG]
    · intro p hp
      rw [show insertG2 ([] : List (String × List (String × List α))) d k v =
        [(d, [(k, [v])])] from rfl, List.mem_singleton] at hp
      subst hp
      simp [keysG]
  | cons p rest ih =>
    obtain ⟨houter, hinner⟩ := h
    rw [keysG_cons, List.nodup_cons] at houter
    by_cases hp : p.1 = d
    · rw [show insertG2 (p :: rest) d k v = (p.1, insertG p.2 k v) :: rest by
        simp [insertG2, hp]]
      constructor
      · rw [keysG_cons, List.nodup_cons]
        exact houter
      · intro q hq
        rcases List.mem_cons.mp hq with hval | htail
        · subst hval
          exact nodup_keysG_insertG _ _ _ (hinner p (List.mem_cons_self _ _))
        · exact hinner q (List.mem_cons_of_mem _ htail)
    · rw [show insertG2 (p :: rest) d k v = p :: insertG2 rest d k v by simp [insertG2, hp]]
      have hrest : nestedNoDup (insertG2 rest d k v) :=
        ih ⟨houter.2, fun q hq => hinner q (List.mem_cons_of_mem _ hq)⟩
      constructor
      · rw [keysG_cons, List.nodup_cons]
        refine ⟨?_, hrest.1⟩
        rw [keysG_insertG2]
        by_cases hm : d ∈ keysG rest
        · rw [if_pos hm]; exact houter.1
        · rw [if_neg hm, List.mem_append, List.mem_singleton]
          rintro (hcontra | hcontra)
          · exact houter.1 hcontra
          · exact hp hcontra
      · intro q hq
        rcases List.mem_cons.mp hq with hval | htail
        · subst hval
          exact hinner q (List.mem_cons_self _ _)
        · exact hrest.2 q htail

/-! ## Characterization of the grouping passes -/

theorem groupTogglAux_all (entries : List TogglEntry) (allAcc : List TEntry)
    (byDate : List (String × List TEntry)) (A : List TEntry)
    (B : List (String × List TEntry))
    (h : groupTogglAux entries allAcc byDate = some (A, B)) :
    A = allAcc ++ entries.map standardize := by
  induction entries generalizing allAcc byDate with
  | nil =>
    simp only [groupTogglAux, Option.some.injEq, Prod.mk.injEq] at h
    simp [← h.1]
  | cons entry rest ih =>
    simp only [groupTogglAux] at h
    cases hd : get_date_from_entry entry.date with
    | none => rw [hd] at h; exact absurd h (by simp)
    | some d =>
      rw [hd] at h
      have := ih _ _ h
      rw [this, List.map_cons, List.append_assoc]
      rfl

theorem groupTogglAux_lookup (entries : List TogglEntry) (allAcc : List TEntry)
    (byDate : List (String × List TEntry)) (A : List TEntry)
    (B : List (String × List TEntry)) (d : String)
    (h : groupTogglAux entries allAcc byDate = some (A, B)) :
    lookupG B d = lookupG byDate d ++ (entries.map standardize).filter (tKeyedDay d) := by
  induction entries generalizing allAcc byDate with
  | nil =>
    simp only [groupTogglAux, Option.some.injEq, Prod.mk.injEq] at h
    simp [← h.2]
  | cons entry rest ih =>
    simp only [groupTogglAux] at h
    cases hd : get_date_from_entry entry.date with
    | none => rw [hd] at h; exact absurd h (by simp)
    | some d0 =>
      rw [hd] at h
      have hrec := ih _ _ h
      rw [List.map_cons, List.filter_cons]
      by_cases hk : (standardize entry).task_number.isSome
      · rw [if_pos hk] at hrec
        by_cases hdd : d0 = d
        · subst hdd
          have hday : tKeyedDay d0 (standardize entry) = true := by
            unfold tKeyedDay
            have : (standardize entry).date = entry.date := rfl
            rw [this, hd]
            simp [hk]
          rw [if_pos hday, hrec, lookupG_insertG_self, List.append_assoc]
          rfl
        · have hne : (some d0 : Option String) ≠ some d :=
            fun hcontra => hdd (Option.some.inj hcontra)
          have hday : tKeyedDay d (standardize entry) = false := by
            unfold tKeyedDay
            have heq : (standardize entry).date = entry.date := rfl
            rw [heq, hd]
            simp [hne]
          rw [if_neg (by rw [hday]; exact Bool.false_ne_true), hrec,
            lookupG_insertG_ne _ _ _ _ (Ne.symm hdd)]
      · rw [if_neg hk] at hrec
        have hkf : (standardize entry).task_number.isSome = false :=
          Bool.eq_false_iff.mpr hk
        have hday : tKeyedDay d (standardize entry) = false := by
          unfold tKeyedDay
          simp [hkf]
        rw [if_neg (by rw [hday]; exact Bool.false_ne_true), hrec]

theorem groupGitlabAux_lookup (events : List GitlabEvent)
    (acc : List (String × List GEvent)) (g : List (String × List GEvent)) (d : String)
    (h : groupGitlabAux events acc = some g) :
    lookupG g d = lookupG acc d ++ (keyedOf events).filter (gEventDay d) := by
  induction events generalizing acc with
  | nil =>
    simp only [groupGitlabAux, Option.some.injEq] at h
    simp [← h, keyedOf]
  | cons event rest ih =>
    simp only [groupGitlabAux] at h
    cases hd : get_date_from_entry event.date with
    | none => rw [hd] at h; exact absurd h (by simp)
    | some d0 =>
      rw [hd] at h
      cases hk : keyOfEvent event with
      | none =>
        rw [hk] at h
        have hrec := ih _ h
        rw [show keyedOf (event :: rest) = keyedOf rest by
          unfold keyedOf
          rw [List.filterMap_cons, hd, hk]]
        exact hrec
      | some tn =>
        rw [hk] at h
        have hrec := ih _ h
        have hkeyed : keyedOf (event :: rest) = mkGEvent event tn :: keyedOf rest := by
          unfold keyedOf
          rw [List.filterMap_cons, hd, hk]
        rw [hkeyed, List.filter_cons]
        by_cases hdd : d0 = d
        · subst hdd
          have hday : gEventDay d0 (mkGEvent event tn) = true := by
            unfold gEventDay
            simp [mkGEvent, hd]
          rw [if_pos hday, hrec, lookupG_insertG_self, List.append_assoc]
          rfl
        · have hne : (some d0 : Option String) ≠ some d :=
            fun hcontra => hdd (Option.some.inj hcontra)
          have hday : gEventDay d (mkGEvent event tn) = false := by
            unfold gEventDay
            simp [mkGEvent, hd, hne]
          rw [if_neg (by rw [hday]; exact Bool.false_ne_true), hrec,
            lookupG_insertG_ne _ _ _ _ (Ne.symm hdd)]

theorem groupGitlabAux_perm (events : List GitlabEvent)
    (acc : List (String × List GEvent)) (g : List (String × List GEvent))
    (h : groupGitlabAux events acc = some g) :
    List.Perm (g.flatMap Prod.snd) ((acc.flatMap Prod.snd) ++ keyedOf events) := by
  induction events generalizing acc with
  | nil =>
    simp only [groupGitlabAux, Option.some.injEq] at h
    subst h
    simp [keyedOf]
  | cons event rest ih =>
    simp only [groupGitlabAux] at h
    cases hd : get_date_from_entry event.date with
    | none => rw [hd] at h; exact absurd h (by simp)
    | some d0 =>
      rw [hd] at h
      cases hk : keyOfEvent event with
      | none =>
        rw [hk] at h
        rw [show keyedOf (event :: rest) = keyedOf rest by
          unfold keyedOf
          rw [List.filterMap_cons, hd, hk]]
        exact ih _ h
      | some tn =>
        rw [hk] at h
        have hrec := ih _ h
        rw [show keyedOf (event :: rest) = mkGEvent event tn :: keyedOf rest by
          unfold keyedOf
          rw [List.filterMap_cons, hd, hk]]
        refine hrec.trans ?_
        refine (List.Perm.append (flatMap_insertG_perm _ _ _) (List.Perm.refl _)).trans ?_
        rw [List.append_assoc]
        exact List.Perm.append_left _ (List.perm_middle.symm.trans (List.Perm.refl _))

theorem groupGitlabAux_day (events : List GitlabEvent)
    (acc : List (String × List GEvent)) (g : List (String × List GEvent))
    (hacc : ∀ p ∈ acc, ∀ e ∈ p.2, get_date_from_entry e.date = some p.1)
    (h : groupGitlabAux events acc = some g) :
    ∀ p ∈ g, ∀ e ∈ p.2, get_date_from_entry e.date = some p.1 := by
  induction events generalizing acc with
  | nil =>
    simp only [groupGitlabAux, Option.some.injEq] at h
    subst h
    exact hacc
  | cons event rest ih =>
    simp only [groupGitlabAux] at h
    cases hd : get_date_from_entry event.date with
    | none => rw [hd] at h; exact absurd h (by simp)
    | some d0 =>
      rw [hd] at h
      cases hk : keyOfEvent event with
      | none =>
        rw [hk] at h
        exact ih _ hacc h
      | some tn =>
        rw [hk] at h
        refine ih _ ?_ h
        exact insertG_forall
          (fun (dd : String) (e : GEvent) => get_date_from_entry e.date = some dd)
          _ _ _ hacc hd

/-! ## Characterization of the matching pass and output passes -/

theorem processEvents_spec (tByDate : List (String × List TEntry)) (d : String)
    (st : MState) (evs : List GEvent) :
    processEvents tByDate d st evs =
      { missing := st.missing ++ gMissing tByDate d evs,
        matched := st.matched ++ gMatched tByDate d evs,
        consumed := st.consumed ++ gConsumed tByDate d evs } := by
  induction evs generalizing st with
  | nil => simp [processEvents, gMissing, gMatched, gConsumed]
  | cons e rest ih =>
    show processEvents tByDate d (processEvent tByDate d st e) rest = _
    rw [ih]
    by_cases h : matchP tByDate d e
    · simp [processEvent, h, gMissing, gMatched, gConsumed, List.filter_cons,
        List.flatMap_cons, List.append_assoc]
    · simp [processEvent, h, gMissing, gMatched, gConsumed, List.filter_cons,
        List.flatMap_cons, List.append_assoc]

theorem matchPassAux_spec (tByDate : List (String × List TEntry)) (st : MState)
    (gg : List (String × List GEvent)) :
    matchPassAux tByDate st gg =
      { missing := st.missing ++ allMissing tByDate gg,
        matched := st.matched ++ allMatched tByDate gg,
        consumed := st.consumed ++ allConsumed tByDate gg } := by
  induction gg generalizing st with
  | nil => simp [matchPassAux, allMissing, allMatched, allConsumed]
  | cons g rest ih =>
    show matchPassAux tByDate (processEvents tByDate g.1 st g.2) rest = _
    rw [ih, processEvents_spec]
    simp [allMissing, allMatched, allConsumed, List.flatMap_cons, List.append_assoc]

theorem togglOnlyAux_spec (consumed : List Triple) (entries : List TEntry)
    (acc : List TonlyEntry) (l : List TonlyEntry)
    (h : togglOnlyAux consumed entries acc = some l) :
    l = acc ++ (entries.filter (emitTonly consumed)).map mkTonly := by
  induction entries generalizing acc with
  | nil =>
    simp only [togglOnlyAux, Option.some.injEq] at h
    simp [← h]
  | cons te rest ih =>
    simp only [togglOnlyAux] at h
    cases hd : get_date_from_entry te.date with
    | none => rw [hd] at h; exact absurd h (by simp)
    | some d =>
      rw [hd] at h
      cases hk : te.task_number with
      | none =>
        rw [hk] at h
        have hemit : emitTonly consumed te = true := by
          unfold emitTonly
          rw [hk]
        rw [List.filter_cons, if_pos hemit, List.map_cons]
        rw [ih _ h, List.append_assoc]
        rfl
      | some k =>
        rw [hk] at h
        have h2 : (if (d, k, te.date) ∈ consumed then togglOnlyAux consumed rest acc
            else togglOnlyAux consumed rest (acc ++ [mkTonly te])) = some l := h
        by_cases hmem : (d, k, te.date) ∈ consumed
        · rw [if_pos hmem] at h2
          have hemit : emitTonly consumed te = false := by
            unfold emitTonly
            rw [hk, hd]
            simp [hmem]
          rw [List.filter_cons, if_neg (by rw [hemit]; exact Bool.false_ne_true)]
          exact ih _ h2
        · rw [if_neg hmem] at h2
          have hemit : emitTonly consumed te = true := by
            unfold emitTonly
            rw [hk, hd]
            simp [hmem]
          rw [List.filter_cons, if_pos hemit, List.map_cons]
          rw [ih _ h2, List.append_assoc]
          rfl

theorem importAux_spec (ms : List OutEntry) (acc : List ImportEntry) :
    importAux ms acc = acc ++ ms.map mkImport := by
  induction ms generalizing acc with
  | nil => simp [importAux]
  | cons e rest ih =>
    show importAux rest (acc ++ [mkImport e]) = _
    rw [ih, List.append_assoc]
    rfl

/-- Destructuring of a successful `compare_core` run into the declarative
descriptions of its four output lists. -/
theorem compare_core_spec (events : List GitlabEvent) (entries : List TogglEntry)
    (out : CompareOutput) (h : compare_core events entries = some out) :
    ∃ gg allE byDate,
      groupGitlab events = some gg ∧
      groupToggl entries = some (allE, byDate) ∧
      out.matched = allMatched byDate gg ∧
      out.missing = allMissing byDate gg ∧
      out.toggl_only = (allE.filter (emitTonly (allConsumed byDate gg))).map mkTonly ∧
      out.toggl_import_data = (allMissing byDate gg).map mkImport := by
  unfold compare_core at h
  cases hg : groupGitlab events with
  | none => rw [hg] at h; exact absurd h (by simp)
  | some gg =>
    rw [hg] at h
    cases ht : groupToggl entries with
    | none => rw [ht] at h; exact absurd h (by simp)
    | some pr =>
      rw [ht] at h
      obtain ⟨allE, byDate⟩ := pr
      simp only at h
      rw [matchPassAux_spec] at h
      simp only [List.nil_append] at h
      cases hto : togglOnlyAux (allConsumed byDate gg) allE [] with
      | none => rw [hto] at h; exact absurd h (by simp)
      | some tonly =>
        rw [hto] at h
        refine ⟨gg, allE, byDate, rfl, rfl, ?_, ?_, ?_, ?_⟩
        · rw [← Option.some.inj h]
        · rw [← Option.some.inj h]
        · rw [← Option.some.inj h]
          have := togglOnlyAux_spec _ _ _ _ hto
          simpa using this
        · rw [← Option.some.inj h]
          show importAux (allMissing byDate gg) [] = _
          rw [importAux_spec]
          rfl

/-! ## Membership characterizations of the outcome lists -/

theorem mem_allMatched (tByDate : List (String × List TEntry))
    (gg : List (String × List GEvent)) (r : OutEntry) :
    r ∈ allMatched tByDate gg ↔
      ∃ p, p ∈ gg ∧ ∃ e, e ∈ p.2 ∧ matchP tByDate p.1 e = true ∧ mkOut e = r := by
  unfold allMatched gMatched
  rw [List.mem_flatMap]
  constructor
  · rintro ⟨p, hp, hr⟩
    rw [List.mem_map] at hr
    obtain ⟨e, he, heq⟩ := hr
    rw [List.mem_filter] at he
    exact ⟨p, hp, e, he.1, he.2, heq⟩
  · rintro ⟨p, hp, e, he, hm, heq⟩
    exact ⟨p, hp, List.mem_map.mpr ⟨e, List.mem_filter.mpr ⟨he, hm⟩, heq⟩⟩

theorem mem_allMissing (tByDate : List (String × List TEntry))
    (gg : List (String × List GEvent)) (r : OutEntry) :
    r ∈ allMissing tByDate gg ↔
      ∃ p, p ∈ gg ∧ ∃ e, e ∈ p.2 ∧ matchP tByDate p.1 e = false ∧ mkOut e = r := by
  unfold allMissing gMissing
  rw [List.mem_flatMap]
  constructor
  · rintro ⟨p, hp, hr⟩
    rw [List.mem_map] at hr
    obtain ⟨e, he, heq⟩ := hr
    rw [List.mem_filter] at he
    refine ⟨p, hp, e, he.1, ?_, heq⟩
    have := he.2
    cases hb : matchP tByDate p.1 e
    · rfl
    · rw [hb] at this; exact absurd this (by decide)
  · rintro ⟨p, hp, e, he, hm, heq⟩
    refine ⟨p, hp, List.mem_map.mpr ⟨e, List.mem_filter.mpr ⟨he, ?_⟩, heq⟩⟩
    rw [hm]
    rfl

theorem perm_append_middle {α : Type} (a b c d : List α) :
    ((a ++ b) ++ (c ++ d)).Perm ((a ++ c) ++ (b ++ d)) := by
  have hmid : (b ++ (c ++ d)).Perm (c ++ (b ++ d)) := by
    rw [← List.append_assoc, ← List.append_assoc]
    exact List.Perm.append List.perm_append_comm (List.Perm.refl d)
  rw [List.append_assoc a b (c ++ d), List.append_assoc a c (b ++ d)]
  exact List.Perm.append_left a hmid

theorem matched_missing_perm (tByDate : List (String × List TEntry))
    (gg : List (String × List GEvent)) :
    (allMatched tByDate gg ++ allMissing tByDate gg).Perm
      ((gg.flatMap Prod.snd).map mkOut) := by
  induction gg with
  | nil => simp [allMatched, allMissing]
  | cons g rest ih =>
    unfold allMatched allMissing at *
    rw [List.flatMap_cons, List.flatMap_cons, List.flatMap_cons, List.map_append]
    refine (perm_append_middle _ _ _ _).trans ?_
    refine List.Perm.append ?_ ih
    unfold gMatched gMissing
    rw [← List.map_append]
    exact List.Perm.map mkOut (List.filter_append_perm (matchP tByDate g.1) g.2)

theorem hash_append_inj (a b : String) (h : "#" ++ a = "#" ++ b) : a = b := by
  have h2 := congrArg String.data h
  rw [String.data_append, String.data_append] at h2
  exact String.ext (by simpa using h2)

theorem matchP_eq_of_task (tByDate : List (String × List TEntry)) (d : String)
    (e₁ e₂ : GEvent) (h : e₁.task_number = e₂.task_number) :
    matchP tByDate d e₁ = matchP tByDate d e₂ := by
  unfold matchP
  rw [h]

theorem mkOut_inj_fields (e₁ e₂ : GEvent) (h : mkOut e₁ = mkOut e₂) :
    e₁.date = e₂.date ∧ e₁.task_number = e₂.task_number := by
  unfold mkOut at h
  rw [OutEntry.mk.injEq] at h
  exact ⟨h.1, hash_append_inj _ _ h.2.1⟩

theorem groupToggl_all_eq (entries : List TogglEntry) (allE : List TEntry)
    (byDate : List (String × List TEntry))
    (ht : groupToggl entries = some (allE, byDate)) :
    allE = entries.map standardize := by
  simpa using groupTogglAux_all entries [] [] allE byDate ht

/-- C1 counterexample: an input with one activity event that has no
extractable numeric task key.  The event is in the input collection, yet the
run produces empty matched and missing lists, so this event appears in
neither outcome list — not in exactly one of them as the claim states. -/
theorem c1_keyless_event_counterexample :
    evNoKey ∈ [evNoKey] ∧
      compare_core [evNoKey] [] =
        some { matched := [], missing := [], toggl_only := [],
               toggl_import_data := [] } :=
  ⟨List.mem_singleton.mpr rfl, rfl⟩

/-- C1 (amended): partition of outcomes.  For every successful run, the
combined matched and missing lists are a permutation of the derived records
of exactly the activity events with an extractable numeric task key (keyless
events are dropped and receive no outcome); no record is in both lists; and
the ledger-only list is the image of a sublist of the standardized ledger
entries, so each ledger entry is reported at most once there.  Matched and
missing records are activity-derived and ledger-only records are
ledger-derived, so no record crosses categories. -/
theorem c1_outcome_partition (events : List GitlabEvent) (entries : List TogglEntry)
    (out : CompareOutput) (h : compare_core events entries = some out) :
    (out.matched ++ out.missing).Perm ((keyedOf events).map mkOut) ∧
      (∀ r, r ∈ out.matched → r ∉ out.missing) ∧
      ∃ sub : List TEntry, sub.Sublist (entries.map standardize) ∧
        out.toggl_only = sub.map mkTonly := by
  obtain ⟨gg, allE, byDate, hg, ht, hm, hmi, hto, _himp⟩ := compare_core_spec _ _ _ h
  refine ⟨?_, ?_, ?_⟩
  · rw [hm, hmi]
    refine (matched_missing_perm byDate gg).trans ?_
    refine List.Perm.map mkOut ?_
    have hperm := groupGitlabAux_perm events [] gg hg
    simpa using hperm
  · intro r hr hrm
    rw [hm, mem_allMatched] at hr
    rw [hmi, mem_allMissing] at hrm
    obtain ⟨p₁, hp₁, e₁, he₁, hmp₁, heq₁⟩ := hr
    obtain ⟨p₂, hp₂, e₂, he₂, hmp₂, heq₂⟩ := hrm
    have hday := groupGitlabAux_day events [] gg
      (fun p hp => absurd hp (List.not_mem_nil p)) hg
    have hd₁ := hday p₁ hp₁ e₁ he₁
    have hd₂ := hday p₂ hp₂ e₂ he₂
    have hfields := mkOut_inj_fields e₁ e₂ (heq₁.trans heq₂.symm)
    rw [hfields.1, hd₂] at hd₁
    have hdd : p₁.1 = p₂.1 := Option.some.inj hd₁.symm
    have hsame : matchP byDate p₁.1 e₁ = matchP byDate p₂.1 e₂ := by
      rw [hdd]
      exact matchP_eq_of_task _ _ _ _ hfields.2
    rw [hmp₁, hmp₂] at hsame
    exact absurd hsame (by decide)
  · refine ⟨allE.filter (emitTonly (allConsumed byDate gg)), ?_, hto⟩
    rw [← groupToggl_all_eq entries allE byDate ht]
    exact List.filter_sublist _

/-- Witness for C1 on a concrete run with two keyed events, one consumed
ledger entry and one keyless ledger entry. -/
theorem c1_witness :
    (cOut.matched ++ cOut.missing).Perm ((keyedOf [evA, evB]).map mkOut) ∧
      (∀ r, r ∈ cOut.matched → r ∉ cOut.missing) ∧
      ∃ sub : List TEntry, sub.Sublist ([tlA, tlNoKey].map standardize) ∧
        cOut.toggl_only = sub.map mkTonly :=
  c1_outcome_partition [evA, evB] [tlA, tlNoKey] cOut (by rfl)

/-! ## The consumption rule and the ledger-only pass -/

theorem task_number_of_mem_standardize (entries : List TogglEntry) (s : TEntry)
    (h : s ∈ entries.map standardize) :
    s.task_number = extract_task_number s.description := by
  rw [List.mem_map] at h
  obtain ⟨raw, _, heq⟩ := h
  rw [← heq]
  rfl

theorem consumed_mem (events : List GitlabEvent) (entries : List TogglEntry)
    (gg : List (String × List GEvent)) (allE : List TEntry)
    (byDate : List (String × List TEntry)) (d k t : String)
    (hg : groupGitlab events = some gg)
    (ht : groupToggl entries = some (allE, byDate))
    (ev : GitlabEvent) (hev : ev ∈ events)
    (hevd : get_date_from_entry ev.date = some d)
    (hevt : ev.target = some t) (hevk : extract_task_number t = some k)
    (te : TogglEntry) (hte : te ∈ entries)
    (htd : get_date_from_entry te.date = some d)
    (htk : extract_task_number te.description = some k) :
    (d, k, te.date) ∈ allConsumed byDate gg := by
  have hko : keyOfEvent ev = some k := by
    unfold keyOfEvent
    rw [hevt]
    exact hevk
  have hkeyed : mkGEvent ev k ∈ keyedOf events := by
    unfold keyedOf
    rw [List.mem_filterMap]
    refine ⟨ev, hev, ?_⟩
    rw [hevd, hko]
  have hlook : lookupG gg d = (keyedOf events).filter (gEventDay d) := by
    simpa using groupGitlabAux_lookup events [] gg d hg
  have hday : gEventDay d (mkGEvent ev k) = true := by
    unfold gEventDay
    rw [show (mkGEvent ev k).date = ev.date from rfl, hevd]
    simp
  have hgeIn : mkGEvent ev k ∈ lookupG gg d := by
    rw [hlook]
    exact List.mem_filter.mpr ⟨hkeyed, hday⟩
  have hne : lookupG gg d ≠ [] := by
    intro hnil
    rw [hnil] at hgeIn
    exact absurd hgeIn (List.not_mem_nil _)
  have hpair : (d, lookupG gg d) ∈ gg := lookupG_mem _ _ hne
  have hblook : lookupG byDate d = (entries.map standardize).filter (tKeyedDay d) := by
    simpa using groupTogglAux_lookup entries [] [] allE byDate d ht
  have hstask : (standardize te).task_number = some k := by
    rw [show (standardize te).task_number = extract_task_number te.description from rfl]
    exact htk
  have hste : standardize te ∈ lookupG byDate d := by
    rw [hblook]
    refine List.mem_filter.mpr ⟨List.mem_map_of_mem standardize hte, ?_⟩
    unfold tKeyedDay
    rw [hstask, show (standardize te).date = te.date from rfl, htd]
    simp
  have hmp : matchP byDate d (mkGEvent ev k) = true := by
    unfold matchP
    rw [List.any_eq_true]
    refine ⟨standardize te, hste, ?_⟩
    rw [hstask]
    simp [mkGEvent]
  have htrip : (d, k, te.date) ∈ consumedOf byDate d (mkGEvent ev k) := by
    unfold consumedOf
    rw [List.mem_map]
    refine ⟨standardize te, List.mem_filter.mpr ⟨hste, by rw [hstask]; simp [mkGEvent]⟩, rfl⟩
  unfold allConsumed
  rw [List.mem_flatMap]
  refine ⟨(d, lookupG gg d), hpair, ?_⟩
  unfold gConsumed
  rw [List.mem_flatMap]
  refine ⟨_, hgeIn, ?_⟩
  rw [if_pos hmp]
  exact htrip

/-- C5: consumption rule.  A ledger entry whose extracted task key equals the
key of at least one activity event with the same calendar day is consumed:
its ledger-only record never appears in the `toggl_only` outcome list of a
successful run, even when several activity events share its key that day. -/
theorem c5_consumed_never_ledger_only (events : List GitlabEvent)
    (entries : List TogglEntry) (out : CompareOutput) (te : TogglEntry)
    (ev : GitlabEvent) (d k t : String)
    (h : compare_core events entries = some out)
    (hte : te ∈ entries) (htd : get_date_from_entry te.date = some d)
    (htk : extract_task_number te.description = some k)
    (hev : ev ∈ events) (hevd : get_date_from_entry ev.date = some d)
    (hevt : ev.target = some t) (hevk : extract_task_number t = some k) :
    mkTonly (standardize te) ∉ out.toggl_only := by
  obtain ⟨gg, allE, byDate, hg, ht, _, _, hto, _⟩ := compare_core_spec _ _ _ h
  intro hmem
  rw [hto, List.mem_map] at hmem
  obtain ⟨s, hs, heq⟩ := hmem
  rw [List.mem_filter] at hs
  have hallE := groupToggl_all_eq entries allE byDate ht
  have hsmem : s ∈ entries.map standardize := by
    rw [← hallE]
    exact hs.1
  have hstask := task_number_of_mem_standardize entries s hsmem
  have hfields : s.date = te.date ∧ s.description = te.description := by
    unfold mkTonly at heq
    rw [TonlyEntry.mk.injEq] at heq
    exact ⟨heq.1, heq.2.1⟩
  have hstk : s.task_number = some k := by
    rw [hstask, hfields.2]
    exact htk
  have hsd : get_date_from_entry s.date = some d := by
    rw [hfields.1]
    exact htd
  have hcons := consumed_mem events entries gg allE byDate d k t hg ht
    ev hev hevd hevt hevk te hte htd htk
  have hemit : emitTonly (allConsumed byDate gg) s = false := by
    unfold emitTonly
    rw [hstk, hsd, hfields.1]
    simp [hcons]
  rw [hs.2] at hemit
  exact absurd hemit (by decide)

/-- Witness for C5: two activity events share key 123 with one ledger entry
on the same day; the ledger entry is not reported ledger-only. -/
theorem c5_witness : mkTonly (standardize tlA) ∉ c5out.toggl_only :=
  c5_consumed_never_ledger_only [evA, evB] [tlA] c5out tlA evA
    "2024-03-01" "123" "#123 Fix bug" (by rfl)
    (List.mem_singleton.mpr rfl) (by rfl) (by rfl)
    (List.mem_cons_self _ _) (by rfl) (by rfl) (by rfl)

/-- C9: a ledger entry with no extractable task key is always reported
ledger-only, whatever the activity feed contains: its record is in the
`toggl_only` list of every successful run. -/
theorem c9_keyless_always_ledger_only (events : List GitlabEvent)
    (entries : List TogglEntry) (out : CompareOutput) (te : TogglEntry)
    (h : compare_core events entries = some out)
    (hte : te ∈ entries)
    (hkey : extract_task_number te.description = none) :
    mkTonly (standardize te) ∈ out.toggl_only := by
  obtain ⟨gg, allE, byDate, hg, ht, _, _, hto, _⟩ := compare_core_spec _ _ _ h
  rw [hto, List.mem_map]
  refine ⟨standardize te, ?_, rfl⟩
  rw [List.mem_filter]
  have hallE := groupToggl_all_eq entries allE byDate ht
  refine ⟨by rw [hallE]; exact List.mem_map_of_mem standardize hte, ?_⟩
  unfold emitTonly
  rw [show (standardize te).task_number = extract_task_number te.description from rfl, hkey]

/-- Witness for C9: the keyless ledger entry is reported ledger-only even
against an empty activity feed. -/
theorem c9_witness : mkTonly (standardize tlNoKey) ∈ c9out.toggl_only :=
  c9_keyless_always_ledger_only [] [tlNoKey] c9out tlNoKey (by rfl)
    (List.mem_singleton.mpr rfl) (by rfl)

/-! ## The per-event import batch -/

theorem findTaskNumber_some_digits (l : List Char) (s : String)
    (h : findTaskNumber l = some s) :
    s.data ≠ [] ∧ ∀ c ∈ s.data, c.isDigit = true := by
  induction l with
  | nil => exact absurd h (by simp [findTaskNumber])
  | cons c rest ih =>
    by_cases hc : c = '#'
    · rw [hc, findTaskNumber_cons_hash] at h
      by_cases he : (rest.takeWhile Char.isDigit).isEmpty
      · rw [if_pos he] at h
        exact ih h
      · rw [if_neg he] at h
        have hs := Option.some.inj h
        constructor
        · rw [← hs]
          intro hnil
          exact he (by rw [List.isEmpty_iff]; exact hnil)
        · intro ch hch
          rw [← hs] at hch
          exact List.mem_takeWhile_imp hch
    · rw [findTaskNumber_cons_ne c rest hc] at h
      exact ih h

theorem extract_some_digits (s k : String) (h : extract_task_number s = some k) :
    k ≠ "" ∧ ∀ c ∈ k.data, c.isDigit = true := by
  unfold extract_task_number at h
  by_cases he : s.data.isEmpty
  · rw [if_pos he] at h
    exact absurd h (by simp)
  · rw [if_neg he] at h
    have hd := findTaskNumber_some_digits _ _ h
    exact ⟨fun hk => hd.1 (by rw [hk]), hd.2⟩

theorem keyedOf_task_extracted (events : List GitlabEvent) (e : GEvent)
    (h : e ∈ keyedOf events) :
    ∃ t : String, extract_task_number t = some e.task_number := by
  rw [keyedOf, List.mem_filterMap] at h
  obtain ⟨a, _, hf⟩ := h
  cases hga : get_date_from_entry a.date with
  | none => rw [hga] at hf; exact absurd hf (by simp)
  | some d0 =>
    rw [hga] at hf
    cases hka : keyOfEvent a with
    | none => rw [hka] at hf; exact absurd hf (by simp)
    | some tn =>
      rw [hka] at hf
      have he : mkGEvent a tn = e := Option.some.inj hf
      unfold keyOfEvent at hka
      cases hat : a.target with
      | none => rw [hat] at hka; exact absurd hka (by simp)
      | some t =>
        rw [hat] at hka
        have hka2 : extract_task_number t = some tn := hka
        refine ⟨t, ?_⟩
        rw [← he]
        exact hka2

theorem missing_from_keyed (events : List GitlabEvent)
    (gg : List (String × List GEvent)) (byDate : List (String × List TEntry))
    (hg : groupGitlab events = some gg) (m : OutEntry)
    (hm : m ∈ allMissing byDate gg) :
    ∃ e, e ∈ keyedOf events ∧ mkOut e = m := by
  rw [mem_allMissing] at hm
  obtain ⟨p, hp, e, he, _, heq⟩ := hm
  have hflat : e ∈ gg.flatMap Prod.snd := List.mem_flatMap.mpr ⟨p, hp, he⟩
  have hperm := groupGitlabAux_perm events [] gg hg
  have hkeyed : e ∈ keyedOf events := by
    have := hperm.mem_iff.mp hflat
    simpa using this
  exact ⟨e, hkeyed, heq⟩

/-- C10: per-entry import batch.  The `toggl_import_data` list of a
successful run contains exactly one record per missing entry, in order; each
such record has duration exactly 1800 seconds and tags exactly
`gitlab-import` followed by the event action lowercased with spaces replaced
by hyphens; the missing entry description is the hash text of a
nonempty-digit key, and the import description is the target label when it
is present and non-empty, else that hash-key text. -/
theorem c10_import_batch (events : List GitlabEvent) (entries : List TogglEntry)
    (out : CompareOutput) (h : compare_core events entries = some out) :
    out.toggl_import_data = out.missing.map mkImport ∧
      ∀ m ∈ out.missing, ∃ k : String, k ≠ "" ∧ (∀ c ∈ k.data, c.isDigit = true) ∧
        m.description = "#" ++ k ∧
        (mkImport m).duration = 1800 ∧
        (mkImport m).tags = ["gitlab-import", pyActionTag m.action] ∧
        (mkImport m).description =
          (match m.target with
           | some t => if t = "" then m.description else t
           | none => m.description) := by
  obtain ⟨gg, allE, byDate, hg, ht, _, hmi, _, himp⟩ := compare_core_spec _ _ _ h
  refine ⟨by rw [himp, hmi], ?_⟩
  intro m hm
  rw [hmi] at hm
  obtain ⟨e, hekeyed, heq⟩ := missing_from_keyed events gg byDate hg m hm
  obtain ⟨t, hext⟩ := keyedOf_task_extracted events e hekeyed
  obtain ⟨hkne, hkdig⟩ := extract_some_digits t e.task_number hext
  refine ⟨e.task_number, hkne, hkdig, ?_, rfl, rfl, rfl⟩
  rw [← heq]
  rfl

/-- Witness for C10 on a run with one missing event. -/
theorem c10_witness :
    c10out.toggl_import_data = c10out.missing.map mkImport ∧
      ∀ m ∈ c10out.missing, ∃ k : String, k ≠ "" ∧ (∀ c ∈ k.data, c.isDigit = true) ∧
        m.description = "#" ++ k ∧
        (mkImport m).duration = 1800 ∧
        (mkImport m).tags = ["gitlab-import", pyActionTag m.action] ∧
        (mkImport m).description =
          (match m.target with
           | some t => if t = "" then m.description else t
           | none => m.description) :=
  c10_import_batch [evA] [] c10out (by rfl)

/-! ## The squash synthesizer -/

theorem lookupG2_cons {α : Type} (p : String × List (String × List α))
    (rest : List (String × List (String × List α))) (d k : String) :
    lookupG2 (p :: rest) d k = if p.1 = d then lookupG p.2 k else lookupG2 rest d k := by
  unfold lookupG2
  rw [lookupG_cons]
  by_cases hp : p.1 = d
  · rw [if_pos hp, if_pos hp]
  · rw [if_neg hp, if_neg hp]

theorem lookupG2_nil {α : Type} (d k : String) :
    lookupG2 ([] : List (String × List (String × List α))) d k = [] := by
  unfold lookupG2
  rw [lookupG_nil, lookupG_nil]

theorem squashGroupsAux_lookup (ms : List OutEntry)
    (acc g : List (String × List (String × List OutEntry))) (d k : String)
    (h : squashGroupsAux ms acc = some g) :
    lookupG2 g d k = lookupG2 acc d k ++ ms.filter (missingGroupP d k) := by
  induction ms generalizing acc with
  | nil =>
    simp only [squashGroupsAux, Option.some.injEq] at h
    simp [← h]
  | cons e rest ih =>
    simp only [squashGroupsAux] at h
    cases hd : get_date_from_entry e.date with
    | none => rw [hd] at h; exact absurd h (by simp)
    | some d0 =>
      rw [hd] at h
      cases hk : extract_task_number e.description with
      | none =>
        rw [hk] at h
        have hrec := ih _ h
        have hP : missingGroupP d k e = false := by
          unfold missingGroupP
          rw [hk]
          simp
        rw [List.filter_cons, if_neg (by rw [hP]; exact Bool.false_ne_true)]
        exact hrec
      | some k0 =>
        rw [hk] at h
        have hrec := ih _ h
        rw [List.filter_cons]
        by_cases hdk : d0 = d ∧ k0 = k
        · obtain ⟨h1, h2⟩ := hdk
          subst h1
          subst h2
          have hP : missingGroupP d0 k0 e = true := by
            unfold missingGroupP
            rw [hd, hk]
            simp
          rw [if_pos hP, hrec, lookupG2_insertG2_self, List.append_assoc]
          rfl
        · have hP : missingGroupP d k e = false := by
            unfold missingGroupP
            rw [hd, hk]
            by_cases h1 : d0 = d
            · subst h1
              have h2 : k0 ≠ k := fun hh => hdk ⟨rfl, hh⟩
              simp [h2]
            · have hne : (some d0 : Option String) ≠ some d :=
                fun hcontra => h1 (Option.some.inj hcontra)
              simp [hne]
          rw [if_neg (by rw [hP]; exact Bool.false_ne_true), hrec,
            lookupG2_insertG2_ne _ _ _ _ _ _
              (fun hcontra => hdk ⟨hcontra.1.symm, hcontra.2.symm⟩)]

theorem squashGroupsAux_nodup (ms : List OutEntry)
    (acc g : List (String × List (String × List OutEntry)))
    (hacc : nestedNoDup acc) (h : squashGroupsAux ms acc = some g) :
    nestedNoDup g := by
  induction ms generalizing acc with
  | nil =>
    simp only [squashGroupsAux, Option.some.injEq] at h
    rw [← h]
    exact hacc
  | cons e rest ih =>
    simp only [squashGroupsAux] at h
    cases hd : get_date_from_entry e.date with
    | none => rw [hd] at h; exact absurd h (by simp)
    | some d0 =>
      rw [hd] at h
      cases hk : extract_task_number e.description with
      | none =>
        rw [hk] at h
        exact ih _ hacc h
      | some k0 =>
        rw [hk] at h
        exact ih _ (nestedNoDup_insertG2 _ _ _ _ hacc) h

theorem innerSquash_eq_annotated (dkey : String)
    (tasks : List (String × List OutEntry)) :
    innerSquash tasks = (innerAnnotated dkey tasks).map Prod.snd := by
  induction tasks with
  | nil => rfl
  | cons q rest ih =>
    unfold innerSquash innerAnnotated at *
    rw [List.flatMap_cons, List.flatMap_cons, List.map_append, ← ih]
    congr 1
    cases q.2 with
    | nil => rfl
    | cons first r => rfl

theorem squashFlatten_eq_annotated (g : List (String × List (String × List OutEntry))) :
    squashFlatten g = (squashAnnotated g).map Prod.snd := by
  induction g with
  | nil => rfl
  | cons p rest ih =>
    unfold squashFlatten squashAnnotated at *
    rw [List.flatMap_cons, List.flatMap_cons, List.map_append, ← ih]
    congr 1
    exact innerSquash_eq_annotated p.1 p.2

theorem squashAnnotated_cons (p : String × List (String × List OutEntry))
    (rest : List (String × List (String × List OutEntry))) :
    squashAnnotated (p :: rest) = innerAnnotated p.1 p.2 ++ squashAnnotated rest := by
  unfold squashAnnotated
  rw [List.flatMap_cons]

theorem innerAnnotated_mem_key (dkey : String) (tasks : List (String × List OutEntry))
    (x : (String × String) × SquashedEntry) (hx : x ∈ innerAnnotated dkey tasks) :
    x.1.1 = dkey ∧ x.1.2 ∈ keysG tasks := by
  unfold innerAnnotated at hx
  rw [List.mem_flatMap] at hx
  obtain ⟨q, hq, hx2⟩ := hx
  cases hqq : q.2 with
  | nil => rw [hqq] at hx2; exact absurd hx2 (List.not_mem_nil _)
  | cons first r =>
    rw [hqq] at hx2
    rw [List.mem_singleton] at hx2
    subst hx2
    exact ⟨rfl, List.mem_map_of_mem Prod.fst hq⟩

theorem squashAnnotated_filter_nil (g : List (String × List (String × List OutEntry)))
    (d k : String) (h : d ∉ keysG g) :
    (squashAnnotated g).filter (fun x => decide (x.1 = (d, k))) = [] := by
  rw [List.filter_eq_nil_iff]
  intro x hx
  have hkey : x.1.1 ∈ keysG g := by
    unfold squashAnnotated at hx
    rw [List.mem_flatMap] at hx
    obtain ⟨p, hp, hx2⟩ := hx
    rw [(innerAnnotated_mem_key p.1 p.2 x hx2).1]
    exact List.mem_map_of_mem Prod.fst hp
  simp only [decide_eq_true_eq]
  intro hcontra
  rw [hcontra] at hkey
  exact h hkey

theorem innerAnnotated_filter_ne (dkey d k : String)
    (tasks : List (String × List OutEntry)) (h : dkey ≠ d) :
    (innerAnnotated dkey tasks).filter (fun x => decide (x.1 = (d, k))) = [] := by
  rw [List.filter_eq_nil_iff]
  intro x hx
  have hkey := (innerAnnotated_mem_key dkey tasks x hx).1
  simp only [decide_eq_true_eq]
  intro hcontra
  apply h
  rw [← hkey, hcontra]

theorem innerAnnotated_cons_nil (dkey : String) (q : String × List OutEntry)
    (rest : List (String × List OutEntry)) (h : q.2 = []) :
    innerAnnotated dkey (q :: rest) = innerAnnotated dkey rest := by
  unfold innerAnnotated
  rw [List.flatMap_cons, h]
  rfl

theorem innerAnnotated_cons_cons (dkey : String) (q : String × List OutEntry)
    (rest : List (String × List OutEntry)) (first : OutEntry) (r : List OutEntry)
    (h : q.2 = first :: r) :
    innerAnnotated dkey (q :: rest) =
      ((dkey, q.1), mkSquash q.1 first (r.length + 1)) :: innerAnnotated dkey rest := by
  unfold innerAnnotated
  rw [List.flatMap_cons, h]
  rfl

theorem innerAnnotated_filter_not_mem (dkey k : String)
    (tasks : List (String × List OutEntry)) (h : k ∉ keysG tasks) :
    (innerAnnotated dkey tasks).filter (fun x => decide (x.1 = (dkey, k))) = [] := by
  rw [List.filter_eq_nil_iff]
  intro x hx
  have hkey := (innerAnnotated_mem_key dkey tasks x hx).2
  simp only [decide_eq_true_eq]
  intro hcontra
  rw [hcontra] at hkey
  exact h hkey

theorem innerAnnotated_filter (dkey k : String) (tasks : List (String × List OutEntry)) :
    (keysG tasks).Nodup →
      (innerAnnotated dkey tasks).filter (fun x => decide (x.1 = (dkey, k))) =
        (match lookupG tasks k with
         | [] => []
         | first :: rest => [((dkey, k), mkSquash k first (rest.length + 1))]) := by
  induction tasks with
  | nil =>
    intro _
    rw [lookupG_nil]
    rfl
  | cons q rest ih =>
    intro hnd
    rw [keysG_cons, List.nodup_cons] at hnd
    by_cases hq : q.1 = k
    · subst hq
      have hrest := innerAnnotated_filter_not_mem dkey q.1 rest hnd.1
      cases hq2 : q.2 with
      | nil =>
        rw [innerAnnotated_cons_nil dkey q rest hq2, hrest, lookupG_cons, if_pos rfl, hq2]
      | cons first r =>
        rw [innerAnnotated_cons_cons dkey q rest first r hq2, List.filter_cons,
          if_pos (by simp), hrest, lookupG_cons, if_pos rfl, hq2]
    · cases hq2 : q.2 with
      | nil =>
        rw [innerAnnotated_cons_nil dkey q rest hq2, lookupG_cons, if_neg hq]
        exact ih hnd.2
      | cons first r =>
        rw [innerAnnotated_cons_cons dkey q rest first r hq2, List.filter_cons,
          if_neg (by simp [hq]), lookupG_cons, if_neg hq]
        exact ih hnd.2

theorem squashAnnotated_filter (g : List (String × List (String × List OutEntry)))
    (d k : String) :
    nestedNoDup g →
      (squashAnnotated g).filter (fun x => decide (x.1 = (d, k))) =
        (match lookupG2 g d k with
         | [] => []
         | first :: rest => [((d, k), mkSquash k first (rest.length + 1))]) := by
  induction g with
  | nil =>
    intro _
    rw [lookupG2_nil]
    rfl
  | cons p rest ih =>
    intro hnd
    obtain ⟨houter, hinner⟩ := hnd
    rw [keysG_cons, List.nodup_cons] at houter
    rw [squashAnnotated_cons, List.filter_append, lookupG2_cons]
    by_cases hp : p.1 = d
    · rw [if_pos hp]
      subst hp
      rw [squashAnnotated_filter_nil rest p.1 k houter.1]
      rw [innerAnnotated_filter p.1 k p.2 (hinner p (List.mem_cons_self _ _))]
      rw [List.append_nil]
    · rw [if_neg hp]
      rw [innerAnnotated_filter_ne p.1 d k p.2 hp, List.nil_append]
      exact ih ⟨houter.2, fun q hq => hinner q (List.mem_cons_of_mem _ hq)⟩

/-- C3: squash totalization.  For every missing-entry group of records
sharing the same day and task key (the group being the in-order filter of
the input), a successful `generate_squashed_import_data` run emits exactly
one squashed entry for that group: the annotated flatten contains exactly
one record keyed by that `(day, key)` pair, its duration is exactly the
group size times 1800 seconds, and its start is the timestamp of the first
record of the group in original input order. -/
theorem c3_squash_totalization (ms : List OutEntry)
    (g : List (String × List (String × List OutEntry))) (d k : String)
    (first : OutEntry) (rest : List OutEntry)
    (hg : squashGroupsAux ms [] = some g)
    (hgrp : ms.filter (missingGroupP d k) = first :: rest) :
    generate_squashed_import_data ms = some ((squashAnnotated g).map Prod.snd) ∧
      (squashAnnotated g).filter (fun x => decide (x.1 = (d, k))) =
        [((d, k), mkSquash k first (rest.length + 1))] ∧
      (mkSquash k first (rest.length + 1)).duration = (first :: rest).length * 1800 ∧
      (mkSquash k first (rest.length + 1)).start = first.date := by
  have hnd : nestedNoDup g :=
    squashGroupsAux_nodup ms [] g ⟨List.nodup_nil, fun p hp => absurd hp (List.not_mem_nil p)⟩ hg
  have hlk : lookupG2 g d k = first :: rest := by
    have hl := squashGroupsAux_lookup ms [] g d k hg
    rw [lookupG2_nil, List.nil_append] at hl
    rw [hl, hgrp]
  refine ⟨?_, ?_, rfl, rfl⟩
  · have hval : generate_squashed_import_data ms = some (squashFlatten g) := by
      unfold generate_squashed_import_data
      rw [hg]
      rfl
    rw [hval, squashFlatten_eq_annotated g]
  · have h5 := squashAnnotated_filter g d k hnd
    rw [hlk] at h5
    exact h5

/-- Witness for C3 on the three-record group of scenario 3: one squashed
entry with duration 5400. -/
theorem c3_witness :
    generate_squashed_import_data [msq1, msq2, msq3] =
        some ((squashAnnotated sqGroups).map Prod.snd) ∧
      (squashAnnotated sqGroups).filter
          (fun x => decide (x.1 = ("2024-03-01", "123"))) =
        [(("2024-03-01", "123"), mkSquash "123" msq1 ([msq2, msq3].length + 1))] ∧
      (mkSquash "123" msq1 ([msq2, msq3].length + 1)).duration =
        (msq1 :: [msq2, msq3]).length * 1800 ∧
      (mkSquash "123" msq1 ([msq2, msq3].length + 1)).start = msq1.date :=
  c3_squash_totalization [msq1, msq2, msq3] sqGroups "2024-03-01" "123" msq1
    [msq2, msq3] (by decide) (by decide)

/-! ## The snapshot differ -/

theorem buildDiffIndexAux_lookup (O : List TogglEntry)
    (acc idx : List (String × List (String × List TogglEntry))) (d k : String)
    (h : buildDiffIndexAux O acc = some idx) :
    lookupG2 idx d k = lookupG2 acc d k ++ O.filter (diffGroupP d k) := by
  induction O generalizing acc with
  | nil =>
    simp only [buildDiffIndexAux, Option.some.injEq] at h
    simp [← h]
  | cons e rest ih =>
    simp only [buildDiffIndexAux] at h
    cases hd : get_date_from_entry e.date with
    | none => rw [hd] at h; exact absurd h (by simp)
    | some d0 =>
      rw [hd] at h
      have hrec := ih _ h
      rw [List.filter_cons]
      by_cases hdk : d0 = d ∧ diffKey e = k
      · obtain ⟨h1, h2⟩ := hdk
        subst h1
        subst h2
        have hP : diffGroupP d0 (diffKey e) e = true := by
          unfold diffGroupP
          rw [hd]
          simp
        rw [if_pos hP, hrec, lookupG2_insertG2_self, List.append_assoc]
        rfl
      · have hP : diffGroupP d k e = false := by
          unfold diffGroupP
          rw [hd]
          by_cases h1 : d0 = d
          · subst h1
            have h2 : diffKey e ≠ k := fun hh => hdk ⟨rfl, hh⟩
            simp [h2]
          · have hne : (some d0 : Option String) ≠ some d :=
              fun hcontra => h1 (Option.some.inj hcontra)
            simp [hne]
        rw [if_neg (by rw [hP]; exact Bool.false_ne_true), hrec,
          lookupG2_insertG2_ne _ _ _ _ _ _
            (fun hcontra => hdk ⟨hcontra.1.symm, hcontra.2.symm⟩)]

theorem diffRowClass_eq (origGroup : List TogglEntry) (u : TogglEntry) :
    diffRowClass origGroup u =
      (if (origGroup.filter (fun o => decide (o.date = u.date))).isEmpty then "added"
       else if (origGroup.filter (fun o => decide (o.date = u.date))).any (entriesDiffer u)
       then "modified" else "") :=
  rfl

theorem diff_matching_mem (O : List TogglEntry)
    (idx : List (String × List (String × List TogglEntry))) (u : TogglEntry)
    (d : String) (h : buildDiffIndexAux O [] = some idx) (o : TogglEntry) :
    o ∈ (lookupG2 idx d (diffKey u)).filter (fun o2 => decide (o2.date = u.date)) ↔
      o ∈ O ∧ (get_date_from_entry o.date = some d ∧ diffKey o = diffKey u ∧
        o.date = u.date) := by
  have hlk : lookupG2 idx d (diffKey u) = O.filter (diffGroupP d (diffKey u)) := by
    have hl := buildDiffIndexAux_lookup O [] idx d (diffKey u) h
    rw [lookupG2_nil, List.nil_append] at hl
    exact hl
  rw [hlk, List.mem_filter, List.mem_filter]
  unfold diffGroupP
  simp only [Bool.and_eq_true, decide_eq_true_eq]
  constructor
  · rintro ⟨⟨ho, hg1, hg2⟩, hdate⟩
    exact ⟨ho, hg1, hg2, hdate⟩
  · rintro ⟨ho, hg1, hg2, hdate⟩
    exact ⟨⟨ho, hg1, hg2⟩, hdate⟩

/-- C4: diff added-completeness.  A newer-snapshot record is tagged `added`
exactly when no older-snapshot record of the same `(day, task key)` group
has exactly the same timestamp. -/
theorem c4_diff_added (O : List TogglEntry)
    (idx : List (String × List (String × List TogglEntry))) (u : TogglEntry)
    (d : String) (h : buildDiffIndexAux O [] = some idx)
    (hd : get_date_from_entry u.date = some d) :
    rowClassOf idx d (diffKey u) u = "added" ↔
      ∀ o ∈ O, ¬(get_date_from_entry o.date = some d ∧ diffKey o = diffKey u ∧
        o.date = u.date) := by
  unfold rowClassOf
  rw [diffRowClass_eq]
  by_cases hemp : ((lookupG2 idx d (diffKey u)).filter
      (fun o2 => decide (o2.date = u.date))).isEmpty
  · rw [if_pos hemp]
    rw [List.isEmpty_iff] at hemp
    constructor
    · intro _ o ho hcon
      have hoin : o ∈ (lookupG2 idx d (diffKey u)).filter
          (fun o2 => decide (o2.date = u.date)) :=
        (diff_matching_mem O idx u d h o).mpr ⟨ho, hcon⟩
      rw [hemp] at hoin
      exact absurd hoin (List.not_mem_nil o)
    · intro _
      rfl
  · rw [if_neg hemp]
    constructor
    · intro hcontra
      by_cases ha : ((lookupG2 idx d (diffKey u)).filter
          (fun o2 => decide (o2.date = u.date))).any (entriesDiffer u)
      · rw [if_pos ha] at hcontra
        exact absurd hcontra (by decide)
      · rw [if_neg ha] at hcontra
        exact absurd hcontra (by decide)
    · intro hall
      exfalso
      apply hemp
      rw [List.isEmpty_iff, List.eq_nil_iff_forall_not_mem]
      intro o hoin
      have := (diff_matching_mem O idx u d h o).mp hoin
      exact hall o this.1 this.2

/-- Witness for C4: a newer-snapshot record whose timestamp has no match in
the older snapshot is tagged `added`. -/
theorem c4_witness :
    rowClassOf dIdx "2024-03-01" (diffKey dNewFresh) dNewFresh = "added" ↔
      ∀ o ∈ [dOld], ¬(get_date_from_entry o.date = some "2024-03-01" ∧
        diffKey o = diffKey dNewFresh ∧ o.date = dNewFresh.date) :=
  c4_diff_added [dOld] dIdx dNewFresh "2024-03-01" (by decide) (by rfl)

/-- C6 counterexample: two records identical in every field except the order
of their tag lists — the tags are equal as sets (a permutation of each
other) — are classified `modified` by the differ: the code compares `tags`
as ordered lists, not as sets, so insertion order is not irrelevant. -/
theorem c6_tag_order_counterexample :
    buildDiffIndexAux [dOld] [] = some dIdx ∧
      rowClassOf dIdx "2024-03-01" (diffKey dNewSwapped) dNewSwapped = "modified" ∧
      dNewSwapped.date = dOld.date ∧
      dNewSwapped.description = dOld.description ∧
      dNewSwapped.project = dOld.project ∧
      dNewSwapped.duration = dOld.duration ∧
      dNewSwapped.tags.Perm dOld.tags ∧
      dNewSwapped.tags ≠ dOld.tags := by
  refine ⟨by decide, by decide, rfl, rfl, rfl, rfl, ?_, by decide⟩
  exact List.Perm.swap "a" "b" []

/-- C6 (amended): diff modified-classification.  A newer-snapshot record
with at least one same-timestamp older record in its `(day, task key)` group
is tagged `modified` exactly when some such older record differs in
description, context/project, duration, or tags, where tags are compared as
ordered lists (insertion order is significant); otherwise it is left
untagged (the empty class, meaning unchanged). -/
theorem c6_diff_modified (O : List TogglEntry)
    (idx : List (String × List (String × List TogglEntry))) (u : TogglEntry)
    (d : String) (h : buildDiffIndexAux O [] = some idx)
    (hd : get_date_from_entry u.date = some d)
    (hm : ∃ o ∈ O, get_date_from_entry o.date = some d ∧ diffKey o = diffKey u ∧
      o.date = u.date) :
    (rowClassOf idx d (diffKey u) u = "modified" ↔
        ∃ o ∈ O, (get_date_from_entry o.date = some d ∧ diffKey o = diffKey u ∧
          o.date = u.date) ∧
          ¬(u.description = o.description ∧ u.project = o.project ∧
            u.duration = o.duration ∧ u.tags = o.tags)) ∧
      (rowClassOf idx d (diffKey u) u = "" ↔
        ¬∃ o ∈ O, (get_date_from_entry o.date = some d ∧ diffKey o = diffKey u ∧
          o.date = u.date) ∧
          ¬(u.description = o.description ∧ u.project = o.project ∧
            u.duration = o.duration ∧ u.tags = o.tags)) := by
  unfold rowClassOf
  rw [diffRowClass_eq]
  have hemp : ¬((lookupG2 idx d (diffKey u)).filter
      (fun o2 => decide (o2.date = u.date))).isEmpty = true := by
    obtain ⟨o, ho, hcon⟩ := hm
    intro hnil
    rw [List.isEmpty_iff] at hnil
    have hoin := (diff_matching_mem O idx u d h o).mpr ⟨ho, hcon⟩
    rw [hnil] at hoin
    exact absurd hoin (List.not_mem_nil o)
  rw [if_neg hemp]
  have hany : ((lookupG2 idx d (diffKey u)).filter
      (fun o2 => decide (o2.date = u.date))).any (entriesDiffer u) = true ↔
      ∃ o ∈ O, (get_date_from_entry o.date = some d ∧ diffKey o = diffKey u ∧
        o.date = u.date) ∧
        ¬(u.description = o.description ∧ u.project = o.project ∧
          u.duration = o.duration ∧ u.tags = o.tags) := by
    rw [List.any_eq_true]
    constructor
    · rintro ⟨o, hoin, hdif⟩
      have hoo := (diff_matching_mem O idx u d h o).mp hoin
      refine ⟨o, hoo.1, hoo.2, ?_⟩
      unfold entriesDiffer at hdif
      exact of_decide_eq_true hdif
    · rintro ⟨o, ho, hcon, hdif⟩
      refine ⟨o, (diff_matching_mem O idx u d h o).mpr ⟨ho, hcon⟩, ?_⟩
      unfold entriesDiffer
      exact decide_eq_true hdif
  by_cases ha : ((lookupG2 idx d (diffKey u)).filter
      (fun o2 => decide (o2.date = u.date))).any (entriesDiffer u)
  · rw [if_pos ha]
    constructor
    · exact ⟨fun _ => hany.mp ha, fun _ => rfl⟩
    · constructor
      · intro hcontra
        exact absurd hcontra (by decide)
      · intro hcontra
        exact absurd (hany.mp ha) hcontra
  · rw [if_neg ha]
    constructor
    · constructor
      · intro hcontra
        exact absurd hcontra (by decide)
      · intro hex
        exact absurd (hany.mpr hex) ha
    · exact ⟨fun _ => fun hex => ha (hany.mpr hex), fun _ => rfl⟩

/-- Witness for C6: the tag-swapped pair shares the timestamp, so the record
is classified by the field comparison; with list-compared tags it comes out
`modified`. -/
theorem c6_witness :
    (rowClassOf dIdx "2024-03-01" (diffKey dNewSwapped) dNewSwapped = "modified" ↔
        ∃ o ∈ [dOld], (get_date_from_entry o.date = some "2024-03-01" ∧
          diffKey o = diffKey dNewSwapped ∧ o.date = dNewSwapped.date) ∧
          ¬(dNewSwapped.description = o.description ∧ dNewSwapped.project = o.project ∧
            dNewSwapped.duration = o.duration ∧ dNewSwapped.tags = o.tags)) ∧
      (rowClassOf dIdx "2024-03-01" (diffKey dNewSwapped) dNewSwapped = "" ↔
        ¬∃ o ∈ [dOld], (get_date_from_entry o.date = some "2024-03-01" ∧
          diffKey o = diffKey dNewSwapped ∧ o.date = dNewSwapped.date) ∧
          ¬(dNewSwapped.description = o.description ∧ dNewSwapped.project = o.project ∧
            dNewSwapped.duration = o.duration ∧ dNewSwapped.tags = o.tags)) :=
  c6_diff_modified [dOld] dIdx dNewSwapped "2024-03-01" (by decide) (by rfl) (by decide)

/-! ## Absent-field behaviour of the date normalizer -/

/-- C7 evidence: a record whose timestamp field is absent is read back as
the empty string by the `.get` defaulting; `get_date_from_entry` then raises
(IndexError from `''.split()[0]`, modelled by `none`), and the whole
reconciliation run aborts instead of classifying the record — on either
side of the comparison. -/
theorem c7_empty_date_crash :
    get_date_from_entry "" = none ∧
      evEmptyDate.date = "" ∧ compare_core [evEmptyDate] [] = none ∧
      tlEmptyDate.date = "" ∧ compare_core [] [tlEmptyDate] = none :=
  ⟨rfl, rfl, rfl, rfl, rfl⟩

end WorkLogger
